import Mathlib

/-!
Verification development for the verzettler note-collection core.

The Python sources embedded here are:
* `src/verzettler/zettel.py` (`Zettel.analyze_file`, the tag/id regexes),
* `src/verzettler/zettelkasten.py` (`Zettelkasten._update_backlinks`,
  `Zettelkasten._update_depths`, `Zettelkasten.finalize`),
* `src/verzettler/note_transformer.py` (`DefaultTransformer._format_tags`,
  `DefaultTransformer._format_link`, `DefaultTransformer.transform`).

Modelling conventions:
* Python strings are Lean `String`s; all scanning is done on `String.data`
  (lists of characters) by structural recursion, so that every definition
  evaluates inside the kernel.  Where a scanner restarts after consuming a
  variable number of characters, it carries a fuel argument that is
  initialised with the length of the scanned list; one fuel unit is spent
  per examined position, so the fuel-exhaustion branch is unreachable.
* Python `set`s of strings are modelled as canonically sorted,
  duplicate-free `List String` values (`setIns`/`setOfList` below keep the
  canonical form).  `sorted(list(s))` is then the list itself; set
  membership is list membership.  String comparison is by code points,
  exactly as in Python.
* `logger.error` calls are modelled by accumulating the formatted message
  in a diagnostics list.
-/

namespace Verz

/-- Code-point comparison of characters, as Python compares strings. -/
def charLtB (a b : Char) : Bool := a.toNat < b.toNat

/-- Lexicographic code-point comparison of character lists (Python `<`). -/
def strLtAux : List Char → List Char → Bool
  | [], [] => false
  | [], _ :: _ => true
  | _ :: _, [] => false
  | a :: as, b :: bs =>
    if charLtB a b then true
    else if charLtB b a then false
    else strLtAux as bs

/-- Python string `<`. -/
def strLt (a b : String) : Bool := strLtAux a.data b.data

/-- Python string `<=`. -/
def strLe (a b : String) : Bool := !(strLt b a)

/-- Insert a string into a canonically sorted duplicate-free list, keeping
the canonical form.  This models `set.add` on a Python set of strings. -/
def setIns (x : String) : List String → List String
  | [] => [x]
  | y :: ys =>
    if strLt x y then x :: y :: ys
    else if strLt y x then y :: setIns x ys
    else y :: ys

/-- Canonical form of a Python set built from a list of strings
(`set(l)`). -/
def setOfList (l : List String) : List String := l.foldl (fun s x => setIns x s) []

/-- Stable insertion of a string into a list ordered by `strLe`
(helper for `sortStrs`). -/
def insSorted (x : String) : List String → List String
  | [] => [x]
  | y :: ys => if strLe x y then x :: y :: ys else y :: insSorted x ys

/-- Python `sorted` on a list of strings (insertion sort, code-point
order). -/
def sortStrs (l : List String) : List String := l.foldr insSorted []

/-- Python `str.strip()`: drop leading and trailing whitespace. -/
def pyStrip (s : String) : String :=
  String.mk (((s.data.dropWhile Char.isWhitespace).reverse.dropWhile Char.isWhitespace).reverse)

/-- Python `str.lower()`. -/
def pyLower (s : String) : String := String.mk (s.data.map Char.toLower)

/-- Substring test on character lists (Python `in` for strings). -/
def infixAux (pat : List Char) : List Char → Bool
  | [] => pat.isEmpty
  | c :: t => pat.isPrefixOf (c :: t) || infixAux pat t

/-- Python `pat in s` for strings. -/
def containsSub (s pat : String) : Bool := infixAux pat.data s.data

/-- Python `s.startswith(pat)`. -/
def startsWithStr (s pat : String) : Bool := pat.data.isPrefixOf s.data

/-- Python `s.endswith(pat)`. -/
def endsWithStr (s pat : String) : Bool := pat.data.isSuffixOf s.data

/-- Python `file.readlines()` / line splitting: split after every newline,
keeping the newline; a final fragment without a newline is kept, and the
empty string yields no lines. -/
def readlinesAux : List Char → List Char → List String
  | acc, [] => if acc.isEmpty then [] else [String.mk acc.reverse]
  | acc, c :: rest =>
    if c = '\n' then String.mk (acc.reverse ++ ['\n']) :: readlinesAux [] rest
    else readlinesAux (c :: acc) rest

/-- All lines of a string, Python `readlines` style. -/
def pyReadlines (s : String) : List String := readlinesAux [] s.data

/-- Python `sep.join(l)`. -/
def joinSep (sep : String) : List String → String
  | [] => ""
  | [x] => x
  | x :: y :: rest => x ++ sep ++ joinSep sep (y :: rest)

/-- Python `s.replace(pat, rep)` on character lists (all occurrences,
left to right, non-overlapping).  The fuel is one unit per scanned
position; `replaceStr` supplies enough fuel for the whole string. -/
def replaceAux (pat rep : List Char) : Nat → List Char → List Char
  | 0, cs => cs
  | _ + 1, [] => []
  | fuel + 1, c :: rest =>
    if pat ≠ [] ∧ pat.isPrefixOf (c :: rest) then
      rep ++ replaceAux pat rep fuel ((c :: rest).drop pat.length)
    else c :: replaceAux pat rep fuel rest

/-- Python `s.replace(pat, rep)` (our call sites never pass an empty
pattern). -/
def replaceStr (s pat rep : String) : String :=
  String.mk (replaceAux pat.data rep.data s.data.length s.data)

/-- Python `s.split(sep)` on character lists (non-overlapping, left to
right); fuel as in `replaceAux`. -/
def splitSepAux (sep : List Char) : Nat → List Char → List Char → List String
  | 0, acc, cs => [String.mk (acc.reverse ++ cs)]
  | _ + 1, acc, [] => [String.mk acc.reverse]
  | fuel + 1, acc, c :: rest =>
    if sep ≠ [] ∧ sep.isPrefixOf (c :: rest) then
      String.mk acc.reverse :: splitSepAux sep fuel [] ((c :: rest).drop sep.length)
    else splitSepAux sep fuel (c :: acc) rest

/-- Python `s.split(sep)` for a non-empty separator. -/
def splitSep (s sep : String) : List String :=
  splitSepAux sep.data s.data.length [] s.data

/-! ### The regexes of `Zettel` / `Note`

`zettel.py` defines `id_regex = re.compile("[0-9]{14}")` and
`tag_regex = re.compile(r"#\S*")`.  `note.py` (absent from `src/`, used by
`note_transformer.py`) additionally has, per the spec, a regex for a bare
identifier link (an id wrapped in double brackets) and a regex recognising
the auto-generated link decoration.  `findall` semantics (leftmost,
non-overlapping) are reproduced by the scanners below. -/

/-- `re.findall("[0-9]{14}", s)` as a one-pass scanner: `cur` is the
digit run collected so far (at most 13 characters, in reverse); when a
14th digit arrives the match is emitted and scanning resumes after it. -/
def idFindAux : List Char → List Char → List String
  | _, [] => []
  | cur, c :: rest =>
    if c.isDigit then
      if cur.length = 13 then String.mk (cur.reverse ++ [c]) :: idFindAux [] rest
      else idFindAux (c :: cur) rest
    else idFindAux [] rest

/-- All 14-digit identifier tokens of a string (`Zettel.id_regex.findall`). -/
def idFindall (s : String) : List String := idFindAux [] s.data

/-- One-pass scanner for `re.findall(r"#\S*", s)`: outside a token,
characters other than `#` are skipped; a `#` opens a token that extends
over all following non-whitespace characters. -/
def tagFindAux : List Char → Option (List Char) → List String
  | [], none => []
  | [], some tok => [String.mk tok]
  | c :: rest, none => if c = '#' then tagFindAux rest (some [c]) else tagFindAux rest none
  | c :: rest, some tok =>
    if c.isWhitespace then String.mk tok :: tagFindAux rest none
    else tagFindAux rest (some (tok ++ [c]))

/-- All hash tokens of a string (`Zettel.tag_regex.findall`). -/
def tagFindall (s : String) : List String := tagFindAux s.data none

/-- Does the character list start with `[[` + 14 digits + `]]`?  If so,
return the 18-character match and the remainder. -/
def idLinkHere (cs : List Char) : Option (List Char × List Char) :=
  match cs with
  | '[' :: '[' :: rest =>
    let digits := rest.take 14
    if digits.length = 14 ∧ digits.all Char.isDigit then
      match rest.drop 14 with
      | ']' :: ']' :: rem => some ('[' :: '[' :: digits ++ [']', ']'], rem)
      | _ => none
    else none
  | _ => none

/-- Modelled from the spec: `Note.id_link_regex_no_group.findall`, the
bare identifier-link tokens (an id wrapped in double brackets) of a line;
`note.py` is absent from `src/`.  Fuel: one unit per scanned position. -/
def idLinkFindAux : Nat → List Char → List String
  | 0, _ => []
  | _ + 1, [] => []
  | fuel + 1, c :: rest =>
    match idLinkHere (c :: rest) with
    | some (tok, rem) => String.mk tok :: idLinkFindAux fuel rem
    | none => idLinkFindAux fuel rest

/-- All bare identifier-link tokens of a string. -/
def idLinkFindall (s : String) : List String := idLinkFindAux s.data.length s.data

/-- Does the character list start with an auto-generated link decoration
`" [<title>](<path> \"autogen\")"` (title without `]`, path part without
`)` and ending in the quoted autogen marker)?  If so return the
remainder. -/
def agHere (cs : List Char) : Option (List Char) :=
  match cs with
  | ' ' :: '[' :: rest =>
    let t := rest.takeWhile (fun c => c ≠ ']')
    match rest.drop t.length with
    | ']' :: '(' :: r2 =>
      let p := r2.takeWhile (fun c => c ≠ ')')
      match r2.drop p.length with
      | ')' :: r4 =>
        if (" \"autogen\"").data.isSuffixOf p then some r4 else none
      | _ => none
    | _ => none
  | _ => none

/-- Modelled from the spec: `Note.autogen_link_regex.sub("", s)`, removal
of every auto-generated link decoration (the fixed recognizable marker of
§4.6 rule 5); `note.py` is absent from `src/`.  Fuel: one unit per
scanned position. -/
def agSubAux : Nat → List Char → List Char
  | 0, cs => cs
  | _ + 1, [] => []
  | fuel + 1, c :: rest =>
    match agHere (c :: rest) with
    | some rem => agSubAux fuel rem
    | none => c :: agSubAux fuel rest

/-- Strip all auto-generated link decorations from a string. -/
def agSub (s : String) : String := String.mk (agSubAux s.data.length s.data)

/-! ### `Zettel` (`zettel.py`)

One record per note.  `zettel.py` initialises `links = []`, `title = ""`,
`tags = set()`; `backlinks` and `depth` are attached by
`Zettelkasten._update_backlinks` / `_update_depths` (per the spec, §3:
`backlinks` empty and `depth` `None`/absent until `finalize()` runs).
`note_transformer.py` uses the same data under the name `Note` with id
field `nid`; we keep the single record with the `zettel.py` field name
`zid`. -/

structure Zettel where
  zid : String
  path : String
  title : String
  tags : List String
  links : List String
  backlinks : List String
  depth : Option Nat
deriving DecidableEq

/-- The tag set parsed from one line:
`set(t[1:] for t in set(tag_regex.findall(line)))`. -/
def readTags (line : String) : List String :=
  setOfList ((setOfList (tagFindall line)).map (fun t => String.mk t.data.tail))

/-- The `"# "`-split based title of a heading line:
`line.split("# ")[1].strip()` (guarded by `line.startswith("# ")`, which
guarantees at least two split fragments). -/
def titleOfLine (line : String) : String := pyStrip ((splitSep line "# ").getD 1 "")

/-- One line of `Zettel.analyze_file`'s loop acting on the accumulated
`(title, tags, links)` state. -/
def analyzeStep (st : String × List String × List String) (line : String) :
    String × List String × List String :=
  let title := if startsWithStr line "# " then titleOfLine line else st.1
  let tags := if containsSub (pyLower line) "tags: " then readTags line else st.2.1
  (title, tags, st.2.2 ++ idFindall line)

/-- `Zettel.analyze_file` on raw file content: the extracted
`(title, tags, links)`. -/
def analyze_file (content : String) : String × List String × List String :=
  (pyReadlines content).foldl analyzeStep ("", [], [])

/-! ### `Zettelkasten` (`zettelkasten.py`)

The collection's state is the list of registered `Zettel`s; the Python
`zid2zettel` dict keys each value by its own `zid` (`add_zettels` always
stores under `zettel.zid`), so iteration over `self.zettels` is iteration
over this list and dict lookup is `find?` by `zid`.  Diagnostics
(`logger.error`) are collected in a list of messages. -/

/-- The reserved root identifier of `_update_depths`. -/
def rootZid : String := "00000000000000"

/-- The message of `logger.error(f"Could not find zettel with ZID {zid}")`. -/
def diagMsg (zid : String) : String := "Could not find zettel with ZID " ++ zid

/-- Dict lookup `self.zid2zettel[zid]` (as an `Option`). -/
def zkFind (zs : List Zettel) (zid : String) : Option Zettel :=
  zs.find? (fun z => z.zid = zid)

/-- Dict membership `zid in self`. -/
def zkContains (zs : List Zettel) (zid : String) : Bool :=
  zs.any (fun z => z.zid = zid)

/-- `self.zid2zettel[target].backlinks.add(src)`: insert `src` into the
backlink set of every entry keyed `target` (keys are unique in the dict;
the map touches exactly that entry). -/
def addBacklink (zs : List Zettel) (target src : String) : List Zettel :=
  zs.map fun z => if z.zid = target then { z with backlinks := setIns src z.backlinks } else z

/-- Set depth of the entry keyed `zid` (`self.zid2zettel[zid].depth = d`). -/
def setDepth (zs : List Zettel) (zid : String) (d : Nat) : List Zettel :=
  zs.map fun z => if z.zid = zid then { z with depth := some d } else z

/-- The inner loop of `_update_backlinks` for one source note: for each
`linked_zid` in `links`, add `src` to the target's backlinks if the
target resolves, else record a diagnostic and continue. -/
def ubLinks (src : String) (links : List String) :
    List Zettel × List String → List Zettel × List String :=
  fun acc =>
    links.foldl
      (fun (acc : List Zettel × List String) lid =>
        if zkContains acc.1 lid then (addBacklink acc.1 lid src, acc.2)
        else (acc.1, acc.2 ++ [diagMsg lid]))
      acc

/-- `Zettelkasten._update_backlinks`: reset every backlink set to empty,
then for every note and every entry of its `links` add the source id to
the resolved target's backlinks; unresolved targets yield one diagnostic
each.  Returns the new state and the diagnostics in emission order. -/
def update_backlinks (zs : List Zettel) : List Zettel × List String :=
  let reset := zs.map fun z => { z with backlinks := [] }
  reset.foldl (fun acc z => ubLinks z.zid z.links acc) (reset, [])

/-- `Zettelkasten._update_depths` (recursive).  The fuel bounds the
recursion depth (Python's call stack); `update_depths` supplies
`length + 1`, which theorem `udGo_isSome` below shows is never exhausted,
so the `none` branch is unreachable.  Mirrors the source line by line:
unresolved `mother` gives a diagnostic and returns; an already assigned
depth returns; otherwise the depth is assigned and for every `daughter`
in `mother.links` the function recurses and afterwards unconditionally
assigns `mother_depth + 1` to the daughter if it resolves (else one
diagnostic).  `udStep` is the body of the `for daughter in mother.links`
loop, abstracted over the recursive call. -/
def udStep (next : List Zettel → String → Nat → Option (List Zettel × List String)) (d : Nat)
    (acc : Option (List Zettel × List String)) (daughter : String) :
    Option (List Zettel × List String) :=
  match acc with
  | none => none
  | some (st, ds) =>
    match next st daughter (d + 1) with
    | none => none
    | some (st1, ds1) =>
      if zkContains st1 daughter then
        some (setDepth st1 daughter (d + 1), ds ++ ds1)
      else some (st1, ds ++ ds1 ++ [diagMsg daughter])

def udGo : Nat → List Zettel → String → Nat → Option (List Zettel × List String)
  | 0, _, _, _ => none
  | fuel + 1, zs, mother, d =>
    match zkFind zs mother with
    | none => some (zs, [diagMsg mother])
    | some m =>
      if m.depth.isSome then some (zs, [])
      else m.links.foldl (udStep (udGo fuel) d) (some (setDepth zs mother d, []))

/-- `Zettelkasten._update_depths()` with the default arguments. -/
def update_depths (zs : List Zettel) : List Zettel × List String :=
  match udGo (zs.length + 1) zs rootZid 0 with
  | some r => r
  | none => (zs, [])

/-- `Zettelkasten.finalize`: recompute backlinks, then depths (the
`_finalized` flag carries no graph information and is omitted). -/
def finalize (zs : List Zettel) : List Zettel :=
  (update_depths (update_backlinks zs).1).1

/-- Modelled from the spec (§4.2): `get_backlinks(id)` returns the note's
computed backlinks, or an empty set if the id is absent; the method is
called by `note_transformer.py` but its definition is not under `src/`. -/
def get_backlinks (zs : List Zettel) (zid : String) : List String :=
  match zkFind zs zid with
  | some z => z.backlinks
  | none => []

/-! ### The line model (`markdown_reader.py`)

Modelled from the spec (§4.5): `markdown_reader.py` is not under `src/`;
`note_transformer.py` consumes a `MarkdownReader` whose `lines` carry the
raw text, a code-region flag, the enclosing heading-section path and a
last-line marker.  Per the spec the annotations are built in one forward
pass: a line opening/closing a fenced block toggles the code flag (we
mark fence lines with the post-toggle state, so an opening fence and the
fenced lines are flagged, the closing fence is not); a heading line of
level `k` (that many `#` followed by a space) replaces the section stack
from position `k-1` on by its own stripped title, the heading line itself
carrying the new stack; exactly the physical last line is marked. -/

structure MdLine where
  text : String
  is_code_block : Bool
  current_section : List String
  is_last_line : Bool
deriving DecidableEq

/-- Heading level of a line: the number of leading `#` characters when
they are followed by a space (0 otherwise). -/
def headingLevel (line : String) : Nat :=
  let hashes := line.data.takeWhile (fun c => c = '#')
  if hashes.length > 0 ∧ (line.data.drop hashes.length).headD '\x00' = ' ' then hashes.length else 0

/-- The title of a heading line of level `k`: the text after the marker,
stripped. -/
def headingTitle (line : String) (k : Nat) : String :=
  pyStrip (String.mk (line.data.drop (k + 1)))

/-- Is the line a code-fence line? -/
def isFence (line : String) : Bool := startsWithStr line "```"

/-- Annotate all lines (forward pass with code flag and section stack). -/
def mdAnnotate : Bool → List String → List String → List MdLine
  | _, _, [] => []
  | inCode, stack, l :: rest =>
    if isFence l then
      ⟨l, !inCode, stack, rest.isEmpty⟩ :: mdAnnotate (!inCode) stack rest
    else
      let k := headingLevel l
      if k > 0 then
        let stack1 := stack.take (k - 1) ++ [headingTitle l k]
        ⟨l, inCode, stack1, rest.isEmpty⟩ :: mdAnnotate inCode stack1 rest
      else ⟨l, inCode, stack, rest.isEmpty⟩ :: mdAnnotate inCode stack rest

/-- `MarkdownReader.from_file`, reading from a content string. -/
def mdReader (content : String) : List MdLine := mdAnnotate false [] (pyReadlines content)

/-! ### `DefaultTransformer` (`note_transformer.py`)

The transformer is embedded as a pure function from the collection, the
tag transformer, the note record and the raw file content to the
rewritten text.  (The source reads the content from `note.path` and the
relative path of a link target via `os.path.relpath`; file access is
replaced by the explicit `content` argument, and `relpath` is modelled
for the flat case where the target sits under the note's directory.) -/

/-- `DefaultTransformer._format_tags`. -/
def format_tags (tags : List String) : String :=
  "Tags: " ++ joinSep " " ((sortStrs tags).map (fun tag => "#" ++ tag)) ++ "\n"

/-- Directory part of a path (text before the final `/`). -/
def parentDir (p : String) : String :=
  String.mk ((p.data.reverse.dropWhile (fun c => c ≠ '/')).drop 1).reverse

/-- `os.path.relpath(target, dir)`, modelled for targets under `dir`. -/
def relPathStr (target dir : String) : String :=
  if (dir ++ "/").data.isPrefixOf target.data then
    String.mk (target.data.drop (dir ++ "/").data.length)
  else target

/-- `DefaultTransformer._format_link`. -/
def format_link (zk : List Zettel) (note : Zettel) (zid : String) : String :=
  match zkFind zk zid with
  | some z =>
    "[[" ++ zid ++ "]] [" ++ z.title ++ "](" ++ relPathStr z.path (parentDir note.path)
      ++ " \"autogen\")"
  | none => "[[" ++ zid ++ "]]"

/-- The id inside a bare link token (the token always contains exactly
one 14-digit run, which the source asserts). -/
def linkZid (link : String) : String := (idFindall link).headD ""

/-- Rule 5 of the pipeline: strip old auto-generated decorations, then
decorate every bare identifier-link token (`str.replace` replaces all
occurrences of the token). -/
def redecorate (zk : List Zettel) (note : Zettel) (text : String) : String :=
  let t := agSub text
  (idLinkFindall t).foldl
    (fun txt link => replaceStr txt link (format_link zk note (linkZid link))) t

/-- Rule 7 of the pipeline: on the last line, if the note has backlinks,
normalize trailing blank lines and append the generated section. -/
def addBacklinksSection (zk : List Zettel) (note : Zettel) (out : List String) : List String :=
  let backlinks := get_backlinks zk note.zid
  if backlinks = [] then out
  else
    let out1 :=
      if out.length ≥ 1 ∧ out.getLastD "" = "\n" then out
      else if out.length ≥ 1 ∧ endsWithStr (out.getLastD "") "\n" then out ++ ["\n"]
      else if out.length ≥ 1 ∧ ¬(endsWithStr (out.getLastD "") "\n" = true) then
        out ++ ["\n", "\n"]
      else out
    out1 ++ ["## Backlinks\n", "\n"]
      ++ (sortStrs backlinks).map (fun backlink => "* " ++ format_link zk note backlink ++ "\n")

/-- The loop state of `DefaultTransformer.transform`: the emitted lines,
the (possibly rewritten) text of the previous input line — the source
reads `md_reader.lines[i - 1].text` after the previous iteration has
mutated it — and the current index. -/
structure TState where
  out : List String
  prev : String
  idx : Nat
deriving DecidableEq

/-- One iteration of the `transform` loop over an annotated line.  The
branches follow the source order: the code-block tag-line removal
(`continue`), the two setext heading rewrites, the tag-section insertion,
the tag-line regeneration (`continue` when the transformed set is empty),
link redecoration, the backlinks-section removal, emission, and the
backlinks-section generation on the last line. -/
def transformStep (zk : List Zettel) (tagTr : List String → List String) (note : Zettel)
    (st : TState) (ml : MdLine) : TState :=
  if ml.is_code_block = true ∧ containsSub (pyLower ml.text) "tags: " = true then
    { out := if 1 ≤ st.idx ∧ pyStrip st.prev = "" then st.out.dropLast else st.out,
      prev := ml.text, idx := st.idx + 1 }
  else
    let eqCond := 1 < st.idx ∧ ml.is_code_block = false ∧ startsWithStr ml.text "===" = true
      ∧ pyStrip st.prev ≠ ""
    let t1 := if eqCond then "# " ++ st.prev else ml.text
    let out1 := if eqCond then st.out.dropLast else st.out
    let dashCond := 1 < st.idx ∧ ml.is_code_block = false ∧ startsWithStr t1 "---" = true
      ∧ pyStrip st.prev ≠ ""
    let t2 := if dashCond then "## " ++ st.prev else t1
    let out2 := if dashCond then out1.dropLast else out1
    let out3 :=
      if note.tags = [] ∧ 1 ≤ st.idx ∧ startsWithStr st.prev "# " = true
          ∧ ml.is_code_block = false then
        let tags := tagTr []
        if tags ≠ [] then out2 ++ ["\n", format_tags tags] else out2
      else out2
    if containsSub (pyLower t2) "tags: " = true ∧ ml.is_code_block = false
        ∧ tagTr (readTags t2) = [] then
      { out := out3, prev := t2, idx := st.idx + 1 }
    else
      let t3 :=
        if containsSub (pyLower t2) "tags: " = true ∧ ml.is_code_block = false then
          format_tags (tagTr (readTags t2))
        else t2
      let t5 := redecorate zk note t3
      let out4 :=
        if ml.current_section.length = 2
            ∧ pyLower (ml.current_section.getLastD "") = "backlinks" then out3
        else out3 ++ [t5]
      let out5 := if ml.is_last_line then addBacklinksSection zk note out4 else out4
      { out := out5, prev := t5, idx := st.idx + 1 }

/-- Python `"".join(l)`. -/
def joinAll (l : List String) : String := l.foldl (fun a b => a ++ b) ""

/-- `DefaultTransformer.transform` as a function of the raw content:
process every annotated line in order and join the emitted lines. -/
def transform (zk : List Zettel) (tagTr : List String → List String) (note : Zettel)
    (content : String) : String :=
  joinAll (((mdReader content).foldl (transformStep zk tagTr note) ⟨[], "", 0⟩).out)

/-- The default tag transformer (`identity` in `note_transformer.py`). -/
def idTagTr : List String → List String := fun t => t

/-! ## Derived notions used in the claim statements and proofs -/

/-- The link graph view of a collection: ids with their outgoing link
lists. -/
def graphOf (zs : List Zettel) : List (String × List String) :=
  zs.map fun z => (z.zid, z.links)

/-- The backlink insertions that the `_update_backlinks` loop performs on
the entry keyed `t`, folded over a graph view starting from `init`. -/
def blInto (t : String) (g : List (String × List String)) (init : List String) : List String :=
  g.foldl (fun acc p => p.2.foldl (fun a lid => if lid = t then setIns p.1 a else a) acc) init

/-- The backlink set `_update_backlinks` computes for the id `t`. -/
def ubBL (zs : List Zettel) (t : String) : List String := blInto t (graphOf zs) []

/-- Everything but the depth is unchanged, and an assigned depth stays
assigned (the per-entry invariant of `_update_depths`). -/
def dAgree (z w : Zettel) : Prop :=
  w.zid = z.zid ∧ w.path = z.path ∧ w.title = z.title ∧ w.tags = z.tags
    ∧ w.links = z.links ∧ w.backlinks = z.backlinks
    ∧ (z.depth.isSome = true → w.depth.isSome = true)

/-- Number of entries with unassigned depth. -/
def countNone (zs : List Zettel) : Nat := zs.countP fun z => z.depth.isNone

/-- Reachability from the root by following `links` of registered notes
(over a graph view). -/
inductive Reaches (g : List (String × List String)) : String → Prop
  | root (h : ∃ p ∈ g, p.1 = rootZid) : Reaches g rootZid
  | step {a b : String} (ha : Reaches g a) (p : String × List String) (hp : p ∈ g)
      (hpa : p.1 = a) (hb : b ∈ p.2) (hreg : ∃ q ∈ g, q.1 = b) : Reaches g b

/-- One link-hop between registered notes (over a graph view). -/
def LinkEdge (g : List (String × List String)) (a b : String) : Prop :=
  ∃ p ∈ g, p.1 = a ∧ b ∈ p.2 ∧ ∃ q ∈ g, q.1 = b

/-- The link graph contains a cycle through the root. -/
def CycleThruRoot (g : List (String × List String)) : Prop :=
  Relation.TransGen (LinkEdge g) rootZid rootZid

/-- The title rule as amended for claim C6: the `"# "`-derived title of
the last raw line starting with `"# "`, empty if there is none. -/
def titleAmendedOf (content : String) : String :=
  match ((pyReadlines content).filter fun l => startsWithStr l "# ").getLast? with
  | some l => titleOfLine l
  | none => ""

/-- The extracted title of `analyze_file`. -/
def analyzeTitle (content : String) : String := (analyze_file content).1

/-- A tag string free of whitespace characters (the restriction under
which the tag round-trip of claim C8 holds). -/
def wsFree (t : String) : Bool := t.data.all fun c => !c.isWhitespace

/-- Strict sorted order on string lists: the canonical form of a Python
string set in this development. -/
def strSorted (l : List String) : Prop := l.Pairwise fun a b => strLt a b = true

/-! ## Concrete collections used in the claim analyses -/

/-- The spec's §8 example: the root note, linking to `20230101000001`. -/
def exC1root : Zettel := ⟨"00000000000000", "/k/root.md", "", [], ["20230101000001"], [], none⟩

/-- The spec's §8 example: the second note, linking back to the root. -/
def exC1b : Zettel := ⟨"20230101000001", "/k/b.md", "", [], ["00000000000000"], [], none⟩

/-- A note whose file content is a single blank line, owning one
backlink from `exC3b` (the state of the collection after `finalize`). -/
def exC3a : Zettel := ⟨"11111111111111", "/k/a.md", "", [], [], ["22222222222222"], some 0⟩

/-- The note that links to `exC3a`. -/
def exC3b : Zettel :=
  ⟨"22222222222222", "/k/b.md", "B", [], ["11111111111111"], [], none⟩

/-- The collection for the C3 counterexample. -/
def exC3zk : List Zettel := [exC3a, exC3b]

/-- A note with no tags, links or backlinks, used for the C7 analysis. -/
def exC7note : Zettel := ⟨"66666666666666", "/k/c7.md", "", [], [], [], none⟩

/-- Witness collection: a note linking to `exW2`. -/
def exW1 : Zettel := ⟨"33333333333333", "/k/w1.md", "", [], ["44444444444444"], [], none⟩

/-- Witness collection: the link target. -/
def exW2 : Zettel := ⟨"44444444444444", "/k/w2.md", "", [], [], [], none⟩

/-- `exW2` as `_update_backlinks` rewrites it. -/
def exW2r : Zettel := ⟨"44444444444444", "/k/w2.md", "", [], [], ["33333333333333"], none⟩

/-- Witness collection: a note with one dangling link (to the
unregistered `99999999999999`) and one resolvable link. -/
def exW3 : Zettel :=
  ⟨"55555555555555", "/k/w3.md", "", [], ["99999999999999", "44444444444444"], [], none⟩

/-! ## Helper lemmas: string order and set model -/

theorem charLtB_connex {a b : Char} (h1 : charLtB a b = false) (h2 : charLtB b a = false) :
    a = b := by
  simp only [charLtB, decide_eq_false_iff_not, not_lt] at h1 h2
  exact Char.ext (UInt32.ext (le_antisymm h2 h1))

theorem strLtAux_connex : ∀ as bs : List Char,
    strLtAux as bs = false → strLtAux bs as = false → as = bs
  | [], [] => by intro _ _; rfl
  | [], _ :: _ => by intro h _; simp [strLtAux] at h
  | _ :: _, [] => by intro _ h; simp [strLtAux] at h
  | a :: as, b :: bs => by
    intro h1 h2
    simp only [strLtAux] at h1 h2
    cases hab : charLtB a b with
    | true => rw [hab] at h1; simp at h1
    | false =>
      cases hba : charLtB b a with
      | true => rw [hba] at h2; simp at h2
      | false =>
        rw [hab, hba] at h1 h2
        simp only [Bool.false_eq_true, if_false] at h1 h2
        have hc : a = b := charLtB_connex hab hba
        rw [hc, strLtAux_connex as bs h1 h2]

theorem strLt_connex {a b : String} (h1 : strLt a b = false) (h2 : strLt b a = false) :
    a = b :=
  String.ext (strLtAux_connex a.data b.data h1 h2)

theorem mem_setIns {x y : String} : ∀ {s : List String}, x ∈ setIns y s ↔ x = y ∨ x ∈ s := by
  intro s
  induction s with
  | nil => simp [setIns]
  | cons z zs ih =>
    cases h1 : strLt y z with
    | true =>
      simp only [setIns, h1, if_true, List.mem_cons]
    | false =>
      cases h2 : strLt z y with
      | true =>
        simp only [setIns, h1, h2, Bool.false_eq_true, if_false, if_true, List.mem_cons, ih]
        tauto
      | false =>
        have hzy : z = y := strLt_connex h2 h1
        subst hzy
        simp only [setIns, h1, Bool.false_eq_true, if_false, List.mem_cons]
        tauto

theorem strLtAux_irrefl : ∀ as : List Char, strLtAux as as = false
  | [] => rfl
  | a :: as => by
    have hc : charLtB a a = false := by simp [charLtB]
    simp only [strLtAux, hc, Bool.false_eq_true, if_false, strLtAux_irrefl as]

theorem strLt_irrefl (a : String) : strLt a a = false := strLtAux_irrefl a.data

theorem strLtAux_asymm : ∀ as bs : List Char,
    strLtAux as bs = true → strLtAux bs as = false
  | [], [] => by intro h; simp [strLtAux] at h
  | [], _ :: _ => by intro _; rfl
  | _ :: _, [] => by intro h; simp [strLtAux] at h
  | a :: as, b :: bs => by
    intro h
    simp only [strLtAux] at h ⊢
    cases hab : charLtB a b with
    | true =>
      have hba : charLtB b a = false := by
        simp only [charLtB, decide_eq_true_eq] at hab
        simp only [charLtB, decide_eq_false_iff_not, not_lt]
        omega
      rw [hba]
      simp
    | false =>
      cases hba : charLtB b a with
      | true => rw [hab, hba] at h; simp at h
      | false =>
        rw [hab, hba] at h
        simp only [Bool.false_eq_true, if_false] at h
        simp only [Bool.false_eq_true, if_false]
        exact strLtAux_asymm as bs h

theorem strLt_asymm {a b : String} (h : strLt a b = true) : strLt b a = false :=
  strLtAux_asymm a.data b.data h

theorem charLtB_trans {a b c : Char} (h1 : charLtB a b = true) (h2 : charLtB b c = true) :
    charLtB a c = true := by
  simp only [charLtB, decide_eq_true_eq] at h1 h2 ⊢
  omega

theorem strLtAux_trans : ∀ as bs cs : List Char,
    strLtAux as bs = true → strLtAux bs cs = true → strLtAux as cs = true
  | as, bs, [] => by
    intro _ h2
    cases bs with
    | nil => simp [strLtAux] at h2
    | cons b bs2 => simp [strLtAux] at h2
  | [], bs, _ :: _ => by intro _ _; rfl
  | a :: as, bs, c :: cs => by
    intro h1 h2
    cases bs with
    | nil => simp [strLtAux] at h1
    | cons b bs2 =>
      simp only [strLtAux] at h1 h2 ⊢
      cases hab : charLtB a b with
      | true =>
        cases hbc : charLtB b c with
        | true =>
          rw [charLtB_trans hab hbc]
          simp
        | false =>
          cases hcb : charLtB c b with
          | true => rw [hbc, hcb] at h2; simp at h2
          | false =>
            have hbceq : b = c := charLtB_connex hbc hcb
            subst hbceq
            rw [hab]
            simp
      | false =>
        cases hba : charLtB b a with
        | true => rw [hab, hba] at h1; simp at h1
        | false =>
          have habeq : a = b := charLtB_connex hab hba
          subst habeq
          have hirr : charLtB a a = false := by simp [charLtB]
          rw [hirr] at h1
          simp only [Bool.false_eq_true, if_false] at h1
          cases hac : charLtB a c with
          | true => simp
          | false =>
            cases hca : charLtB c a with
            | true => rw [hac, hca] at h2; simp at h2
            | false =>
              rw [hac, hca] at h2
              simp only [Bool.false_eq_true, if_false] at h2 ⊢
              exact strLtAux_trans as bs2 cs h1 h2

theorem strLt_trans {a b c : String} (h1 : strLt a b = true) (h2 : strLt b c = true) :
    strLt a c = true :=
  strLtAux_trans a.data b.data c.data h1 h2

theorem mem_foldl_setIns : ∀ (l : List String) (s : List String) (x : String),
    x ∈ l.foldl (fun s y => setIns y s) s ↔ x ∈ s ∨ x ∈ l
  | [], s, x => by simp
  | y :: l, s, x => by
    rw [List.foldl_cons, mem_foldl_setIns l]
    rw [mem_setIns]
    simp only [List.mem_cons]
    tauto

theorem mem_setOfList {l : List String} {x : String} : x ∈ setOfList l ↔ x ∈ l := by
  rw [setOfList, mem_foldl_setIns]
  simp

theorem setIns_pairwise : ∀ {s : List String},
    s.Pairwise (fun a b => strLt a b = true) → ∀ x : String,
    (setIns x s).Pairwise (fun a b => strLt a b = true) := by
  intro s
  induction s with
  | nil =>
    intro _ x
    simp [setIns]
  | cons y ys ih =>
    intro hp x
    rcases List.pairwise_cons.mp hp with ⟨hy, hys⟩
    cases hxy : strLt x y with
    | true =>
      simp only [setIns, hxy, if_true]
      refine List.pairwise_cons.mpr ⟨?_, hp⟩
      intro z hz
      rcases List.mem_cons.mp hz with rfl | hz2
      · exact hxy
      · exact strLt_trans hxy (hy z hz2)
    | false =>
      cases hyx : strLt y x with
      | true =>
        simp only [setIns, hxy, hyx, Bool.false_eq_true, if_false, if_true]
        refine List.pairwise_cons.mpr ⟨?_, ih hys x⟩
        intro z hz
        rcases mem_setIns.mp hz with rfl | hz2
        · exact hyx
        · exact hy z hz2
      | false =>
        simp only [setIns, hxy, hyx, Bool.false_eq_true, if_false]
        exact hp

theorem setOfList_pairwise (l : List String) :
    (setOfList l).Pairwise (fun a b => strLt a b = true) := by
  have hgen : ∀ (l2 : List String) (s : List String),
      s.Pairwise (fun a b => strLt a b = true) →
      (l2.foldl (fun s y => setIns y s) s).Pairwise (fun a b => strLt a b = true) := by
    intro l2
    induction l2 with
    | nil => intro s hs; simpa using hs
    | cons y l2 ih =>
      intro s hs
      rw [List.foldl_cons]
      exact ih _ (setIns_pairwise hs y)
  exact hgen l [] List.Pairwise.nil

theorem sorted_ext : ∀ {l1 l2 : List String},
    l1.Pairwise (fun a b => strLt a b = true) →
    l2.Pairwise (fun a b => strLt a b = true) →
    (∀ x, x ∈ l1 ↔ x ∈ l2) → l1 = l2
  | [], [], _, _, _ => rfl
  | [], y :: ys, _, _, hm => by
    have := (hm y).mpr (List.mem_cons_self y ys)
    cases this
  | x :: xs, [], _, _, hm => by
    have := (hm x).mp (List.mem_cons_self x xs)
    cases this
  | x :: xs, y :: ys, h1, h2, hm => by
    rcases List.pairwise_cons.mp h1 with ⟨hx, hxs⟩
    rcases List.pairwise_cons.mp h2 with ⟨hy, hys⟩
    have hxy : x = y := by
      rcases List.mem_cons.mp ((hm x).mp (List.mem_cons_self x xs)) with h | hxys
      · exact h
      · rcases List.mem_cons.mp ((hm y).mpr (List.mem_cons_self y ys)) with h | hyxs
        · exact h.symm
        · have ha : strLt x y = true := hx y hyxs
          have hb : strLt y x = true := hy x hxys
          rw [strLt_asymm ha] at hb
          cases hb
    subst hxy
    have hrest : ∀ z, z ∈ xs ↔ z ∈ ys := by
      intro z
      constructor
      · intro hz
        have hne : z ≠ x := by
          intro he
          have := hx z hz
          rw [he, strLt_irrefl] at this
          cases this
        rcases List.mem_cons.mp ((hm z).mp (List.mem_cons_of_mem x hz)) with h | h
        · exact absurd h hne
        · exact h
      · intro hz
        have hne : z ≠ x := by
          intro he
          have := hy z hz
          rw [he, strLt_irrefl] at this
          cases this
        rcases List.mem_cons.mp ((hm z).mpr (List.mem_cons_of_mem x hz)) with h | h
        · exact absurd h hne
        · exact h
    rw [sorted_ext hxs hys hrest]

theorem insSorted_cons {x y : String} (ys : List String) (h : strLe x y = true) :
    insSorted x (y :: ys) = x :: y :: ys := by
  simp [insSorted, h]

theorem sortStrs_sorted_id : ∀ {l : List String},
    l.Pairwise (fun a b => strLt a b = true) → sortStrs l = l
  | [], _ => rfl
  | x :: rest, hp => by
    rcases List.pairwise_cons.mp hp with ⟨hx, hrest⟩
    have ih := sortStrs_sorted_id hrest
    show insSorted x (sortStrs rest) = x :: rest
    rw [ih]
    cases rest with
    | nil => rfl
    | cons y ys =>
      refine insSorted_cons ys ?_
      have hlt := hx y (List.mem_cons_self y ys)
      rw [strLe, strLt_asymm hlt]
      rfl

theorem wsFree_chars {t : String} (h : wsFree t = true) :
    ∀ c ∈ t.data, c.isWhitespace = false := by
  intro c hc
  simp only [wsFree, List.all_eq_true] at h
  have := h c hc
  simp only [Bool.not_eq_true'] at this
  exact this

theorem tagAux_skip : ∀ (cs rest : List Char), (∀ c ∈ cs, ¬ c = '#') →
    tagFindAux (cs ++ rest) none = tagFindAux rest none
  | [], _, _ => rfl
  | c :: cs, rest, h => by
    have hc : ¬ c = '#' := h c (List.mem_cons_self c cs)
    simp only [List.cons_append, tagFindAux, if_neg hc]
    exact tagAux_skip cs rest (fun x hx => h x (List.mem_cons_of_mem c hx))

theorem tagAux_token : ∀ (t : List Char) (tok : List Char) (ws : Char) (rest : List Char),
    (∀ c ∈ t, c.isWhitespace = false) → ws.isWhitespace = true →
    tagFindAux (t ++ ws :: rest) (some tok) = String.mk (tok ++ t) :: tagFindAux rest none
  | [], tok, ws, rest, _, hws => by
    simp only [List.nil_append, tagFindAux, if_pos hws, List.append_nil]
  | c :: t, tok, ws, rest, h, hws => by
    have hc : c.isWhitespace = false := h c (List.mem_cons_self c t)
    simp only [List.cons_append, tagFindAux, hc, Bool.false_eq_true, if_false, List.append_eq]
    rw [tagAux_token t (tok ++ [c]) ws rest (fun x hx => h x (List.mem_cons_of_mem c hx)) hws]
    rw [List.append_assoc]
    rfl

theorem tagAux_join : ∀ (l : List String), (∀ t ∈ l, wsFree t = true) →
    tagFindAux ((joinSep " " (l.map fun t => "#" ++ t)).data ++ ['\n']) none
      = l.map fun t => "#" ++ t
  | [], _ => rfl
  | [t], h => by
    have hds : (joinSep " " ([t].map fun t => "#" ++ t)).data = '#' :: t.data := by
      show (("#" ++ t) : String).data = '#' :: t.data
      rw [String.data_append]
      rfl
    rw [hds]
    simp only [List.cons_append, tagFindAux, eq_self_iff_true, if_true, List.append_eq]
    rw [tagAux_token t.data ['#'] '\n' [] (wsFree_chars (h t (List.mem_cons_self t [])))
      (by decide)]
    have : String.mk (['#'] ++ t.data) = "#" ++ t := by
      rw [show ("#" ++ t : String) = String.mk ("#".data ++ t.data) from (String.ext_iff).mpr
        (String.data_append "#" t)]
    rw [this]
    rfl
  | t :: t2 :: rest, h => by
    have hds : (joinSep " " ((t :: t2 :: rest).map fun t => "#" ++ t)).data
        = '#' :: t.data ++ ' ' :: (joinSep " " ((t2 :: rest).map fun t => "#" ++ t)).data := by
      show (("#" ++ t) ++ " " ++ joinSep " " ((t2 :: rest).map fun t => "#" ++ t)).data = _
      rw [String.data_append, String.data_append, String.data_append]
      simp
    rw [hds]
    simp only [List.cons_append, tagFindAux, eq_self_iff_true, if_true, List.append_eq]
    rw [List.append_assoc]
    rw [show (' ' :: (joinSep " " ((t2 :: rest).map fun t => "#" ++ t)).data) ++ ['\n']
        = ' ' :: ((joinSep " " ((t2 :: rest).map fun t => "#" ++ t)).data ++ ['\n']) from rfl]
    rw [tagAux_token t.data ['#'] ' ' _ (wsFree_chars (h t (List.mem_cons_self t _))) (by decide)]
    rw [tagAux_join (t2 :: rest) (fun x hx => h x (List.mem_cons_of_mem t hx))]
    have : String.mk (['#'] ++ t.data) = "#" ++ t := by
      rw [show ("#" ++ t : String) = String.mk ("#".data ++ t.data) from (String.ext_iff).mpr
        (String.data_append "#" t)]
    rw [this]
    rfl

/-! ## Helper lemmas: `_update_backlinks` -/

theorem zkContains_of_mem {zs : List Zettel} {e : Zettel} (he : e ∈ zs) :
    zkContains zs e.zid = true := by
  simp only [zkContains, List.any_eq_true]
  exact ⟨e, he, by simp⟩

/-- One-source characterization: the inner loop of `_update_backlinks`
rewrites every entry's backlink set by folding the source's links into
it. -/
theorem ubLinks_fst (src : String) : ∀ (links : List String) (acc : List Zettel × List String),
    (ubLinks src links acc).1 =
      acc.1.map fun e =>
        { e with
          backlinks :=
            links.foldl (fun a lid => if lid = e.zid then setIns src a else a) e.backlinks }
  | [], acc => (List.map_id acc.1).symm
  | lid :: rest, acc => by
    have hstep : ubLinks src (lid :: rest) acc =
        ubLinks src rest
          (if zkContains acc.1 lid = true then (addBacklink acc.1 lid src, acc.2)
           else (acc.1, acc.2 ++ [diagMsg lid])) := rfl
    rw [hstep]
    by_cases hc : zkContains acc.1 lid = true
    · rw [if_pos hc, ubLinks_fst src rest]
      simp only [addBacklink, List.map_map]
      apply List.map_congr_left
      intro e _
      by_cases hz : e.zid = lid
      · simp [Function.comp, hz, List.foldl]
      · simp only [Function.comp, if_neg hz, List.foldl, if_neg (fun h : lid = e.zid => hz h.symm)]
    · rw [if_neg hc, ubLinks_fst src rest]
      apply List.map_congr_left
      intro e he
      have hz : lid ≠ e.zid := by
        intro h
        rw [h] at hc
        exact hc (zkContains_of_mem he)
      simp only [List.foldl, if_neg hz]

/-- The outer loop of `_update_backlinks` rewrites every entry's backlink
set by folding the whole graph view into it. -/
theorem ubOuter_fst : ∀ (ps : List Zettel) (acc : List Zettel × List String),
    (ps.foldl (fun a z => ubLinks z.zid z.links a) acc).1 =
      acc.1.map fun e => { e with backlinks := blInto e.zid (graphOf ps) e.backlinks }
  | [], acc => by
    simp only [List.foldl, graphOf, List.map_nil, blInto]
    exact (List.map_id acc.1).symm
  | z :: ps, acc => by
    simp only [List.foldl]
    rw [ubOuter_fst ps, ubLinks_fst z.zid z.links acc]
    simp only [List.map_map]
    apply List.map_congr_left
    intro e _
    simp [Function.comp, blInto, graphOf, List.foldl]

/-- The characterization of `_update_backlinks`: every entry keeps all
fields but gets the backlink set `ubBL` of its id. -/
theorem ub_char (zs : List Zettel) :
    (update_backlinks zs).1 = zs.map fun z => { z with backlinks := ubBL zs z.zid } := by
  simp only [update_backlinks]
  rw [ubOuter_fst]
  simp only [List.map_map]
  apply List.map_congr_left
  intro e _
  have hg : graphOf (zs.map fun z => { z with backlinks := [] }) = graphOf zs := by
    simp only [graphOf, List.map_map]
    rfl
  simp [Function.comp, ubBL, hg]

theorem ub_length (zs : List Zettel) : (update_backlinks zs).1.length = zs.length := by
  rw [ub_char]; simp

theorem mem_linkFold {x t src : String} : ∀ {links : List String} {init : List String},
    x ∈ links.foldl (fun a lid => if lid = t then setIns src a else a) init
      ↔ x ∈ init ∨ (x = src ∧ t ∈ links) := by
  intro links
  induction links with
  | nil => simp
  | cons lid rest ih =>
    intro init
    simp only [List.foldl]
    by_cases hz : lid = t
    · rw [if_pos hz, ih]
      subst hz
      simp only [mem_setIns, List.mem_cons]
      tauto
    · rw [if_neg hz, ih]
      have : (t ∈ lid :: rest) ↔ t ∈ rest := by
        simp only [List.mem_cons]
        constructor
        · rintro (h | h)
          · exact absurd h.symm hz
          · exact h
        · exact Or.inr
      rw [this]

theorem mem_blInto {x t : String} : ∀ {g : List (String × List String)} {init : List String},
    x ∈ blInto t g init ↔ x ∈ init ∨ ∃ p ∈ g, p.1 = x ∧ t ∈ p.2 := by
  intro g
  induction g with
  | nil => simp [blInto]
  | cons p ps ih =>
    intro init
    simp only [blInto, List.foldl] at ih ⊢
    rw [ih, mem_linkFold]
    simp only [List.mem_cons]
    constructor
    · rintro ((h | h) | ⟨q, hq, hqx, hqt⟩)
      · exact Or.inl h
      · exact Or.inr ⟨p, Or.inl rfl, h.1.symm, h.2⟩
      · exact Or.inr ⟨q, Or.inr hq, hqx, hqt⟩
    · rintro (h | ⟨q, hq | hq, hqx, hqt⟩)
      · exact Or.inl (Or.inl h)
      · exact Or.inl (Or.inr ⟨by rw [hq] at hqx; exact hqx.symm, by rw [hq] at hqt; exact hqt⟩)
      · exact Or.inr ⟨q, hq, hqx, hqt⟩

theorem mem_ubBL {zs : List Zettel} {x t : String} :
    x ∈ ubBL zs t ↔ ∃ w ∈ zs, w.zid = x ∧ t ∈ w.links := by
  simp only [ubBL, mem_blInto, List.mem_nil_iff, false_or, graphOf, List.mem_map]
  constructor
  · rintro ⟨p, ⟨w, hw, rfl⟩, hx, ht⟩
    exact ⟨w, hw, hx, ht⟩
  · rintro ⟨w, hw, hx, ht⟩
    exact ⟨(w.zid, w.links), ⟨w, hw, rfl⟩, hx, ht⟩

theorem diagMsg_inj {a b : String} (h : diagMsg a = diagMsg b) : a = b := by
  have hd := congrArg String.data h
  simp only [diagMsg, String.data_append] at hd
  exact String.ext (List.append_cancel_left hd)

theorem zkContains_congr {zs ys : List Zettel} {u : String}
    (h : zs.map Zettel.zid = ys.map Zettel.zid) : zkContains zs u = zkContains ys u := by
  rw [Bool.eq_iff_iff]
  simp only [zkContains, List.any_eq_true, decide_eq_true_eq]
  constructor
  · rintro ⟨z, hz, hzu⟩
    have hmem : u ∈ ys.map Zettel.zid := by rw [← h]; exact List.mem_map.mpr ⟨z, hz, hzu⟩
    rcases List.mem_map.mp hmem with ⟨w, hw, hwu⟩
    exact ⟨w, hw, hwu⟩
  · rintro ⟨z, hz, hzu⟩
    have hmem : u ∈ zs.map Zettel.zid := by rw [h]; exact List.mem_map.mpr ⟨z, hz, hzu⟩
    rcases List.mem_map.mp hmem with ⟨w, hw, hwu⟩
    exact ⟨w, hw, hwu⟩

theorem addBacklink_map_zid (zs : List Zettel) (t s : String) :
    (addBacklink zs t s).map Zettel.zid = zs.map Zettel.zid := by
  simp only [addBacklink, List.map_map]
  apply List.map_congr_left
  intro z _
  by_cases h : z.zid = t <;> simp [Function.comp, h]

theorem ubLinks_map_zid (src : String) (links : List String) (acc : List Zettel × List String) :
    (ubLinks src links acc).1.map Zettel.zid = acc.1.map Zettel.zid := by
  rw [ubLinks_fst]
  simp [List.map_map]

theorem ubLinks_count (src u : String) : ∀ (links : List String) (acc : List Zettel × List String),
    zkContains acc.1 u = false →
    (ubLinks src links acc).2.count (diagMsg u) = acc.2.count (diagMsg u) + links.count u
  | [], acc, _ => by simp [ubLinks, List.foldl]
  | lid :: rest, acc, hu => by
    have hstep : ubLinks src (lid :: rest) acc =
        ubLinks src rest
          (if zkContains acc.1 lid = true then (addBacklink acc.1 lid src, acc.2)
           else (acc.1, acc.2 ++ [diagMsg lid])) := rfl
    rw [hstep]
    by_cases hz : lid = u
    · rw [if_neg (by rw [hz, hu]; simp)]
      rw [ubLinks_count src u rest (acc.1, acc.2 ++ [diagMsg lid]) hu]
      simp [List.count_cons, List.count_append, List.count_singleton, hz]
      omega
    · by_cases hc : zkContains acc.1 lid = true
      · rw [if_pos hc]
        have hu2 : zkContains (addBacklink acc.1 lid src) u = false := by
          rw [zkContains_congr (addBacklink_map_zid acc.1 lid src), hu]
        rw [ubLinks_count src u rest _ hu2]
        simp [List.count_cons, hz]
      · rw [if_neg hc]
        rw [ubLinks_count src u rest (acc.1, acc.2 ++ [diagMsg lid]) hu]
        have hne : diagMsg lid ≠ diagMsg u := fun h => hz (diagMsg_inj h)
        simp [List.count_cons, List.count_append, hz, List.count_singleton, hne]

theorem ubOuter_map_zid : ∀ (ps : List Zettel) (acc : List Zettel × List String),
    (ps.foldl (fun a z => ubLinks z.zid z.links a) acc).1.map Zettel.zid = acc.1.map Zettel.zid
  | [], _ => rfl
  | z :: ps, acc => by
    simp only [List.foldl]
    rw [ubOuter_map_zid ps, ubLinks_map_zid]

theorem ubOuter_count (u : String) : ∀ (ps : List Zettel) (acc : List Zettel × List String),
    zkContains acc.1 u = false →
    (ps.foldl (fun a z => ubLinks z.zid z.links a) acc).2.count (diagMsg u)
      = acc.2.count (diagMsg u) + (ps.map fun z => z.links.count u).sum
  | [], acc, _ => by simp [List.foldl]
  | z :: ps, acc, hu => by
    simp only [List.foldl]
    have hu2 : zkContains (ubLinks z.zid z.links acc).1 u = false := by
      rw [zkContains_congr (ubLinks_map_zid z.zid z.links acc), hu]
    rw [ubOuter_count u ps _ hu2, ubLinks_count z.zid u z.links acc hu]
    simp only [List.map_cons, List.sum_cons]
    omega

/-- Diagnostics of `_update_backlinks` for an unregistered id: exactly
one per occurrence of the id in any links list. -/
theorem ub_diag_count (zs : List Zettel) (u : String) (hu : zkContains zs u = false) :
    (update_backlinks zs).2.count (diagMsg u) = (zs.map fun z => z.links.count u).sum := by
  simp only [update_backlinks]
  have hz : (zs.map fun z => { z with backlinks := ([] : List String) }).map Zettel.zid
      = zs.map Zettel.zid := by
    simp [List.map_map]
  have hu2 : zkContains (zs.map fun z => { z with backlinks := ([] : List String) }) u = false := by
    rw [zkContains_congr hz, hu]
  rw [ubOuter_count u _ _ hu2]
  simp [List.map_map]
  rfl

/-! ## Helper lemmas: `_update_depths` -/

theorem dAgree_refl (z : Zettel) : dAgree z z :=
  ⟨rfl, rfl, rfl, rfl, rfl, rfl, fun h => h⟩

theorem dAgree_trans {a b c : Zettel} (h1 : dAgree a b) (h2 : dAgree b c) : dAgree a c := by
  obtain ⟨e1, e2, e3, e4, e5, e6, e7⟩ := h1
  obtain ⟨f1, f2, f3, f4, f5, f6, f7⟩ := h2
  refine ⟨?_, ?_, ?_, ?_, ?_, ?_, ?_⟩ <;> first
    | (intro h; exact f7 (e7 h))
    | (rw [f1, e1]) | (rw [f2, e2]) | (rw [f3, e3]) | (rw [f4, e4]) | (rw [f5, e5])
    | (rw [f6, e6])

theorem forall2_dAgree_refl : ∀ zs : List Zettel, List.Forall₂ dAgree zs zs
  | [] => List.Forall₂.nil
  | z :: zs => List.Forall₂.cons (dAgree_refl z) (forall2_dAgree_refl zs)

theorem forall2_dAgree_trans : ∀ {a b c : List Zettel},
    List.Forall₂ dAgree a b → List.Forall₂ dAgree b c → List.Forall₂ dAgree a c
  | [], [], [], _, _ => List.Forall₂.nil
  | _ :: _, _ :: _, _ :: _, List.Forall₂.cons h1 t1, List.Forall₂.cons h2 t2 =>
    List.Forall₂.cons (dAgree_trans h1 h2) (forall2_dAgree_trans t1 t2)

theorem setDepth_dAgree (zs : List Zettel) (t : String) (d : Nat) :
    List.Forall₂ dAgree zs (setDepth zs t d) := by
  induction zs with
  | nil => exact List.Forall₂.nil
  | cons z rest ih =>
    refine List.Forall₂.cons ?_ ih
    by_cases h : z.zid = t
    · simp only [setDepth, if_pos h]
      exact ⟨rfl, rfl, rfl, rfl, rfl, rfl, fun _ => by simp⟩
    · simp only [setDepth, if_neg h]
      exact dAgree_refl z

theorem udStep_none (next : List Zettel → String → Nat → Option (List Zettel × List String))
    (d : Nat) (daughter : String) : udStep next d none daughter = none := rfl

theorem udFold_none (next : List Zettel → String → Nat → Option (List Zettel × List String))
    (d : Nat) : ∀ links : List String, links.foldl (udStep next d) none = none
  | [] => rfl
  | daughter :: rest => by
    rw [List.foldl_cons, udStep_none, udFold_none next d rest]

theorem udFold_dAgree
    (next : List Zettel → String → Nat → Option (List Zettel × List String))
    (hnext : ∀ st m dd r, next st m dd = some r → List.Forall₂ dAgree st r.1) (d : Nat) :
    ∀ (links : List String) (st : List Zettel) (ds : List String) (r : List Zettel × List String),
      links.foldl (udStep next d) (some (st, ds)) = some r → List.Forall₂ dAgree st r.1
  | [], st, ds, r => by
    intro h
    simp only [List.foldl] at h
    obtain rfl : (st, ds) = r := by injection h
    exact forall2_dAgree_refl st
  | daughter :: rest, st, ds, r => by
    intro h
    rw [List.foldl_cons] at h
    cases hnx : next st daughter (d + 1) with
    | none =>
      rw [show udStep next d (some (st, ds)) daughter
          = match next st daughter (d + 1) with
            | none => none
            | some (st1, ds1) =>
              if zkContains st1 daughter then
                some (setDepth st1 daughter (d + 1), ds ++ ds1)
              else some (st1, ds ++ ds1 ++ [diagMsg daughter]) from rfl, hnx] at h
      rw [udFold_none] at h
      exact absurd h (by simp)
    | some r1 =>
      obtain ⟨st1, ds1⟩ := r1
      rw [show udStep next d (some (st, ds)) daughter
          = match next st daughter (d + 1) with
            | none => none
            | some (st1, ds1) =>
              if zkContains st1 daughter then
                some (setDepth st1 daughter (d + 1), ds ++ ds1)
              else some (st1, ds ++ ds1 ++ [diagMsg daughter]) from rfl, hnx] at h
      dsimp only at h
      by_cases hc : zkContains st1 daughter = true
      · rw [if_pos hc] at h
        have h2 := udFold_dAgree next hnext d rest _ _ r h
        exact forall2_dAgree_trans (hnext _ _ _ _ hnx)
          (forall2_dAgree_trans (setDepth_dAgree st1 daughter (d + 1)) h2)
      · rw [if_neg hc] at h
        have h2 := udFold_dAgree next hnext d rest _ _ r h
        exact forall2_dAgree_trans (hnext _ _ _ _ hnx) h2

theorem udStep_some (next : List Zettel → String → Nat → Option (List Zettel × List String))
    (d : Nat) (st : List Zettel) (ds : List String) (daughter : String) :
    udStep next d (some (st, ds)) daughter
      = match next st daughter (d + 1) with
        | none => none
        | some (st1, ds1) =>
          if zkContains st1 daughter then some (setDepth st1 daughter (d + 1), ds ++ ds1)
          else some (st1, ds ++ ds1 ++ [diagMsg daughter]) := rfl

theorem udGo_succ (fuel : Nat) (zs : List Zettel) (m : String) (d : Nat) :
    udGo (fuel + 1) zs m d
      = match zkFind zs m with
        | none => some (zs, [diagMsg m])
        | some mz =>
          if mz.depth.isSome then some (zs, [])
          else mz.links.foldl (udStep (udGo fuel) d) (some (setDepth zs m d, [])) := rfl

/-- `_update_depths` preserves everything but depth assignment, and never
unassigns a depth. -/
theorem udGo_dAgree : ∀ (fuel : Nat) (zs : List Zettel) (m : String) (d : Nat)
    (r : List Zettel × List String),
    udGo fuel zs m d = some r → List.Forall₂ dAgree zs r.1
  | 0, _, _, _, r => by intro h; simp [udGo] at h
  | fuel + 1, zs, m, d, r => by
    intro h
    rw [show udGo (fuel + 1) zs m d
        = match zkFind zs m with
          | none => some (zs, [diagMsg m])
          | some mz =>
            if mz.depth.isSome then some (zs, [])
            else mz.links.foldl (udStep (udGo fuel) d) (some (setDepth zs m d, [])) from rfl] at h
    cases hf : zkFind zs m with
    | none =>
      rw [hf] at h
      dsimp only at h
      obtain rfl : (zs, [diagMsg m]) = r := by injection h
      exact forall2_dAgree_refl zs
    | some mz =>
      rw [hf] at h
      dsimp only at h
      by_cases hd : mz.depth.isSome = true
      · rw [if_pos hd] at h
        obtain rfl : (zs, ([] : List String)) = r := by injection h
        exact forall2_dAgree_refl zs
      · rw [if_neg hd] at h
        have h2 := udFold_dAgree (udGo fuel)
          (fun st mm dd rr hh => udGo_dAgree fuel st mm dd rr hh) d mz.links _ _ r h
        exact forall2_dAgree_trans (setDepth_dAgree zs m d) h2

theorem dAgree_isNone {x y : Zettel} (h : dAgree x y) (hy : y.depth.isNone = true) :
    x.depth.isNone = true := by
  rcases h with ⟨-, -, -, -, -, -, h7⟩
  cases hdx : x.depth with
  | none => rfl
  | some v =>
    have hs := h7 (by rw [hdx]; rfl)
    rw [Option.isNone_iff_eq_none] at hy
    rw [hy] at hs
    simp at hs

theorem countNone_le_of_forall2 : ∀ {a b : List Zettel},
    List.Forall₂ dAgree a b → countNone b ≤ countNone a
  | [], [], _ => Nat.le_refl 0
  | x :: xs, y :: ys, List.Forall₂.cons h t => by
    have ih := countNone_le_of_forall2 t
    simp only [countNone, List.countP_cons] at ih ⊢
    by_cases hy : y.depth.isNone = true
    · have hx := dAgree_isNone h hy
      simp only [hy, hx, if_true]
      omega
    · simp only [Bool.not_eq_true] at hy
      simp only [hy, Bool.false_eq_true, if_false]
      by_cases hx : x.depth.isNone = true <;> simp only [hx, if_true, Bool.false_eq_true,
        if_false] <;> omega

theorem zkFind_setDepth_self {zs : List Zettel} {m : String} {z : Zettel} (d : Nat)
    (hf : zkFind zs m = some z) :
    zkFind (setDepth zs m d) m = some { z with depth := some d } := by
  induction zs with
  | nil => simp [zkFind] at hf
  | cons a rest ih =>
    by_cases ha : a.zid = m
    · rw [zkFind, List.find?_cons_of_pos _ (by simpa using ha)] at hf
      obtain rfl : a = z := by injection hf
      simp only [setDepth, List.map_cons, if_pos ha, zkFind]
      rw [List.find?_cons_of_pos _ (by simpa using ha)]
    · rw [zkFind, List.find?_cons_of_neg _ (by simpa using ha)] at hf
      simp only [setDepth, List.map_cons, if_neg ha, zkFind]
      rw [List.find?_cons_of_neg _ (by simpa using ha)]
      exact ih hf

theorem setDepth_countNone_lt {zs : List Zettel} {m : String} {z : Zettel} (d : Nat)
    (hf : zkFind zs m = some z) (hz : z.depth.isNone = true) :
    countNone (setDepth zs m d) < countNone zs := by
  induction zs with
  | nil => simp [zkFind] at hf
  | cons a rest ih =>
    by_cases ha : a.zid = m
    · rw [zkFind, List.find?_cons_of_pos _ (by simpa using ha)] at hf
      obtain rfl : a = z := by injection hf
      simp only [setDepth, List.map_cons, if_pos ha, countNone, List.countP_cons]
      have hle : countNone (setDepth rest m d) ≤ countNone rest :=
        countNone_le_of_forall2 (setDepth_dAgree rest m d)
      simp only [countNone, setDepth] at hle
      simp only [hz, if_true]
      simp only [Option.isNone_some, Bool.false_eq_true, if_false]
      omega
    · rw [zkFind, List.find?_cons_of_neg _ (by simpa using ha)] at hf
      have hlt := ih hf
      simp only [setDepth, List.map_cons, if_neg ha, countNone, List.countP_cons] at hlt ⊢
      omega

theorem udFold_ne_none (next : List Zettel → String → Nat → Option (List Zettel × List String))
    (fuel : Nat) (htot : ∀ st m dd, countNone st < fuel → next st m dd ≠ none)
    (hagree : ∀ st m dd r, next st m dd = some r → List.Forall₂ dAgree st r.1) (d : Nat) :
    ∀ (links : List String) (st : List Zettel) (ds : List String),
      countNone st < fuel → links.foldl (udStep next d) (some (st, ds)) ≠ none
  | [], st, ds, _ => by simp [List.foldl]
  | daughter :: rest, st, ds, h => by
    rw [List.foldl_cons]
    cases hnx : next st daughter (d + 1) with
    | none => exact absurd hnx (htot st daughter (d + 1) h)
    | some r1 =>
      obtain ⟨st1, ds1⟩ := r1
      rw [udStep_some, hnx]
      dsimp only
      have hle : countNone st1 ≤ countNone st := countNone_le_of_forall2 (hagree _ _ _ _ hnx)
      by_cases hc : zkContains st1 daughter = true
      · rw [if_pos hc]
        have hle2 : countNone (setDepth st1 daughter (d + 1)) ≤ countNone st1 :=
          countNone_le_of_forall2 (setDepth_dAgree st1 daughter (d + 1))
        exact udFold_ne_none next fuel htot hagree d rest _ _ (by omega)
      · rw [if_neg hc]
        exact udFold_ne_none next fuel htot hagree d rest _ _ (by omega)

/-- Fuel sufficiency for `_update_depths`: with more fuel than unassigned
entries the recursion never runs out (the model of termination). -/
theorem udGo_ne_none : ∀ (fuel : Nat) (zs : List Zettel) (m : String) (d : Nat),
    countNone zs < fuel → udGo fuel zs m d ≠ none
  | 0, _, _, _, h => by omega
  | fuel + 1, zs, m, d, h => by
    rw [udGo_succ]
    cases hf : zkFind zs m with
    | none => simp
    | some mz =>
      dsimp only
      by_cases hd : mz.depth.isSome = true
      · rw [if_pos hd]
        simp
      · rw [if_neg hd]
        have hz : mz.depth.isNone = true := by
          cases hmz : mz.depth
          · rfl
          · rw [hmz] at hd; simp at hd
        have hlt := setDepth_countNone_lt d hf hz
        exact udFold_ne_none (udGo fuel) fuel
          (fun st mm dd hh => udGo_ne_none fuel st mm dd hh)
          (fun st mm dd r hh => udGo_dAgree fuel st mm dd r hh) d mz.links _ _ (by omega)

theorem countNone_le_length (zs : List Zettel) : countNone zs ≤ zs.length :=
  List.countP_le_length _

theorem update_depths_ne_none (zs : List Zettel) : udGo (zs.length + 1) zs rootZid 0 ≠ none :=
  udGo_ne_none _ _ _ _ (Nat.lt_of_le_of_lt (countNone_le_length zs) (Nat.lt_succ_self _))

theorem zkFind_none_of_forall2 : ∀ {zs st : List Zettel} {m : String},
    List.Forall₂ dAgree zs st → zkFind zs m = none → zkFind st m = none
  | [], [], _, _, _ => rfl
  | a :: _, b :: _, m, List.Forall₂.cons h t, hf => by
    by_cases ha : a.zid = m
    · rw [zkFind, List.find?_cons_of_pos _ (by simpa using ha)] at hf
      exact absurd hf (by simp)
    · rw [zkFind, List.find?_cons_of_neg _ (by simpa using ha)] at hf
      have hb : ¬ b.zid = m := by rw [h.1]; exact ha
      rw [zkFind, List.find?_cons_of_neg _ (by simpa using hb)]
      exact zkFind_none_of_forall2 t hf

theorem zkFind_some_of_forall2 : ∀ {zs st : List Zettel} {m : String} {z : Zettel},
    List.Forall₂ dAgree zs st → zkFind zs m = some z →
    ∃ w, zkFind st m = some w ∧ dAgree z w
  | [], [], _, _, _, hf => by simp [zkFind] at hf
  | a :: _, b :: _, m, z, List.Forall₂.cons h t, hf => by
    by_cases ha : a.zid = m
    · rw [zkFind, List.find?_cons_of_pos _ (by simpa using ha)] at hf
      obtain rfl : a = z := by injection hf
      have hb : b.zid = m := by rw [h.1]; exact ha
      exact ⟨b, by rw [zkFind, List.find?_cons_of_pos _ (by simpa using hb)], h⟩
    · rw [zkFind, List.find?_cons_of_neg _ (by simpa using ha)] at hf
      have hb : ¬ b.zid = m := by rw [h.1]; exact ha
      rw [zkFind]
      rw [List.find?_cons_of_neg _ (by simpa using hb)]
      exact zkFind_some_of_forall2 t hf

/-- After a successful `_update_depths` call on a registered note, that
note's depth is assigned. -/
theorem udGo_root_isSome : ∀ (fuel : Nat) (zs : List Zettel) (m : String) (d : Nat)
    (r : List Zettel × List String) (z : Zettel),
    udGo fuel zs m d = some r → zkFind zs m = some z →
    ∃ w, zkFind r.1 m = some w ∧ w.depth.isSome = true
  | 0, _, _, _, _, _ => by intro h _; simp [udGo] at h
  | fuel + 1, zs, m, d, r, z => by
    intro h hf
    rw [udGo_succ, hf] at h
    dsimp only at h
    by_cases hd : z.depth.isSome = true
    · rw [if_pos hd] at h
      obtain rfl : (zs, ([] : List String)) = r := by injection h
      exact ⟨z, hf, hd⟩
    · rw [if_neg hd] at h
      have hst0 := zkFind_setDepth_self d hf
      have hag := udFold_dAgree (udGo fuel)
        (fun st mm dd rr hh => udGo_dAgree fuel st mm dd rr hh) d z.links _ _ r h
      rcases zkFind_some_of_forall2 hag hst0 with ⟨w, hw, hwag⟩
      exact ⟨w, hw, hwag.2.2.2.2.2.2 (by simp)⟩

/-! ## Helper lemmas: depth assignment along the traversal -/

theorem forall2_mem_right {R : Zettel → Zettel → Prop} : ∀ {a b : List Zettel},
    List.Forall₂ R a b → ∀ {e : Zettel}, e ∈ b → ∃ x ∈ a, R x e
  | _, _, List.Forall₂.cons h t, e, he => by
    rcases List.mem_cons.mp he with rfl | he2
    · exact ⟨_, List.mem_cons_self _ _, h⟩
    · rcases forall2_mem_right t he2 with ⟨x, hx, hxe⟩
      exact ⟨x, List.mem_cons_of_mem _ hx, hxe⟩

theorem map_zid_of_forall2 : ∀ {a b : List Zettel},
    List.Forall₂ dAgree a b → b.map Zettel.zid = a.map Zettel.zid
  | [], [], _ => rfl
  | _ :: _, _ :: _, List.Forall₂.cons h t => by
    simp only [List.map_cons, h.1, map_zid_of_forall2 t]

theorem graphOf_of_forall2 : ∀ {a b : List Zettel},
    List.Forall₂ dAgree a b → graphOf b = graphOf a
  | [], [], _ => rfl
  | _ :: _, _ :: _, List.Forall₂.cons h t => by
    have ih := graphOf_of_forall2 t
    simp only [graphOf, List.map_cons] at ih ⊢
    rw [h.1, h.2.2.2.2.1, ih]

theorem setDepth_map_zid (zs : List Zettel) (t : String) (d : Nat) :
    (setDepth zs t d).map Zettel.zid = zs.map Zettel.zid :=
  map_zid_of_forall2 (setDepth_dAgree zs t d)

theorem zkFind_setDepth_other {zs : List Zettel} {t x : String} (d : Nat) (hx : x ≠ t) :
    zkFind (setDepth zs t d) x = zkFind zs x := by
  induction zs with
  | nil => rfl
  | cons a rest ih =>
    by_cases ha : a.zid = x
    · have hat : ¬ a.zid = t := by rw [ha]; exact hx
      simp only [setDepth, List.map_cons, if_neg hat, zkFind]
      rw [List.find?_cons_of_pos _ (by simpa using ha), List.find?_cons_of_pos _ (by simpa using ha)]
    · by_cases hat : a.zid = t
      · simp only [setDepth, List.map_cons, if_pos hat, zkFind]
        rw [List.find?_cons_of_neg _ (by simpa using ha), List.find?_cons_of_neg _ (by simpa using ha)]
        exact ih
      · simp only [setDepth, List.map_cons, if_neg hat, zkFind]
        rw [List.find?_cons_of_neg _ (by simpa using ha), List.find?_cons_of_neg _ (by simpa using ha)]
        exact ih

theorem zkContains_iff_find (zs : List Zettel) (u : String) :
    zkContains zs u = true ↔ ∃ z, zkFind zs u = some z := by
  simp only [zkContains, List.any_eq_true, decide_eq_true_eq, zkFind]
  constructor
  · rintro ⟨z, hz, hzu⟩
    have hs : (zs.find? fun w => decide (w.zid = u)).isSome = true := by
      rw [List.find?_isSome]
      exact ⟨z, hz, by simpa using hzu⟩
    rcases Option.isSome_iff_exists.mp hs with ⟨w, hw⟩
    exact ⟨w, hw⟩
  · rintro ⟨z, hz⟩
    refine ⟨z, List.mem_of_find?_eq_some hz, ?_⟩
    have := List.find?_some hz
    simpa using this

theorem depth_none_isSome_false {z : Zettel} (h1 : z.depth.isNone = true)
    (h2 : z.depth.isSome = true) : False := by
  rw [Option.isNone_iff_eq_none] at h1
  rw [h1] at h2
  simp at h2

/-- The unconditional post-recursion assignment of `_update_depths`:
after the daughter loop, every registered daughter has an assigned
depth. -/
theorem udFold_assigns (next : List Zettel → String → Nat → Option (List Zettel × List String))
    (hagree : ∀ st m dd r, next st m dd = some r → List.Forall₂ dAgree st r.1) (d : Nat) :
    ∀ (links : List String) (st : List Zettel) (ds : List String) (r : List Zettel × List String),
      links.foldl (udStep next d) (some (st, ds)) = some r →
      ∀ b ∈ links, zkContains st b = true →
      ∃ w, zkFind r.1 b = some w ∧ w.depth.isSome = true
  | [], _, _, _ => by
    intro _ b hb
    exact absurd hb (List.not_mem_nil b)
  | daughter :: rest, st, ds, r => by
    intro h b hb hcb
    rw [List.foldl_cons] at h
    cases hnx : next st daughter (d + 1) with
    | none =>
      rw [udStep_some, hnx] at h
      dsimp only at h
      rw [udFold_none] at h
      exact absurd h (by simp)
    | some r1 =>
      obtain ⟨st1, ds1⟩ := r1
      rw [udStep_some, hnx] at h
      dsimp only at h
      have hag1 : List.Forall₂ dAgree st st1 := hagree _ _ _ _ hnx
      have hzid1 : st1.map Zettel.zid = st.map Zettel.zid := map_zid_of_forall2 hag1
      by_cases hc : zkContains st1 daughter = true
      · rw [if_pos hc] at h
        rcases List.mem_cons.mp hb with rfl | hbrest
        · have hcb1 : zkContains st1 b = true := by rw [zkContains_congr hzid1]; exact hcb
          rcases (zkContains_iff_find st1 b).mp hcb1 with ⟨z1, hz1⟩
          have hset := zkFind_setDepth_self (d + 1) hz1
          have hag2 : List.Forall₂ dAgree (setDepth st1 b (d + 1)) r.1 :=
            udFold_dAgree next hagree d rest _ _ r h
          rcases zkFind_some_of_forall2 hag2 hset with ⟨w, hw, hwag⟩
          exact ⟨w, hw, hwag.2.2.2.2.2.2 (by simp)⟩
        · have hcb2 : zkContains (setDepth st1 daughter (d + 1)) b = true := by
            rw [zkContains_congr (setDepth_map_zid st1 daughter (d + 1)),
              zkContains_congr hzid1]
            exact hcb
          exact udFold_assigns next hagree d rest _ _ r h b hbrest hcb2
      · rw [if_neg hc] at h
        rcases List.mem_cons.mp hb with rfl | hbrest
        · have hcb1 : zkContains st1 b = true := by rw [zkContains_congr hzid1]; exact hcb
          exact absurd hcb1 hc
        · have hcb1 : zkContains st1 b = true := by rw [zkContains_congr hzid1]; exact hcb
          exact udFold_assigns next hagree d rest _ _ r h b hbrest hcb1

/-- Companion of `udGo_children` for the daughter loop. -/
theorem udFold_children (next : List Zettel → String → Nat → Option (List Zettel × List String))
    (hchildren : ∀ st m dd r, next st m dd = some r →
      ∀ x z z', zkFind st x = some z → z.depth.isNone = true →
        zkFind r.1 x = some z' → z'.depth.isSome = true →
        ∀ b ∈ z.links, zkContains st b = true →
        ∃ w, zkFind r.1 b = some w ∧ w.depth.isSome = true)
    (hroot : ∀ st m dd r z, next st m dd = some r → zkFind st m = some z →
      ∃ w, zkFind r.1 m = some w ∧ w.depth.isSome = true)
    (hagree : ∀ st m dd r, next st m dd = some r → List.Forall₂ dAgree st r.1) (d : Nat) :
    ∀ (links : List String) (st : List Zettel) (ds : List String) (r : List Zettel × List String),
      links.foldl (udStep next d) (some (st, ds)) = some r →
      ∀ x z z', zkFind st x = some z → z.depth.isNone = true →
        zkFind r.1 x = some z' → z'.depth.isSome = true →
        ∀ b ∈ z.links, zkContains st b = true →
        ∃ w, zkFind r.1 b = some w ∧ w.depth.isSome = true
  | [], st, ds, r => by
    intro h x z z' hx hzn hx' hzs
    simp only [List.foldl] at h
    obtain rfl : (st, ds) = r := by injection h
    rw [hx] at hx'
    obtain rfl : z = z' := by injection hx'
    exact (depth_none_isSome_false hzn hzs).elim
  | daughter :: rest, st, ds, r => by
    intro h x z z' hx hzn hx' hzs b hb hcb
    rw [List.foldl_cons] at h
    cases hnx : next st daughter (d + 1) with
    | none =>
      rw [udStep_some, hnx] at h
      dsimp only at h
      rw [udFold_none] at h
      exact absurd h (by simp)
    | some r1 =>
      obtain ⟨st1, ds1⟩ := r1
      rw [udStep_some, hnx] at h
      dsimp only at h
      have hag1 : List.Forall₂ dAgree st st1 := hagree _ _ _ _ hnx
      have hzid1 : st1.map Zettel.zid = st.map Zettel.zid := map_zid_of_forall2 hag1
      rcases zkFind_some_of_forall2 hag1 hx with ⟨z1, hz1, hagz⟩
      by_cases hs1 : z1.depth.isSome = true
      · -- the note got its depth inside the recursive call: its registered
        -- daughters were assigned there, and assignments survive the rest
        -- of the loop
        rcases hchildren st daughter (d + 1) _ hnx x z z1 hx hzn hz1 hs1 b hb hcb
          with ⟨w1, hw1, hw1s⟩
        have hag2 : List.Forall₂ dAgree st1 r.1 := by
          by_cases hc : zkContains st1 daughter = true
          · rw [if_pos hc] at h
            exact forall2_dAgree_trans (setDepth_dAgree st1 daughter (d + 1))
              (udFold_dAgree next hagree d rest _ _ r h)
          · rw [if_neg hc] at h
            exact udFold_dAgree next hagree d rest _ _ r h
        rcases zkFind_some_of_forall2 hag2 hw1 with ⟨w, hw, hwag⟩
        exact ⟨w, hw, hwag.2.2.2.2.2.2 hw1s⟩
      · -- the note is still unassigned after the recursive call
        have hzn1 : z1.depth.isNone = true := by
          cases hd1 : z1.depth
          · rfl
          · rw [hd1] at hs1; simp at hs1
        have hxd : x ≠ daughter := by
          intro hxe
          rcases hroot st daughter (d + 1) _ z hnx (by rw [← hxe]; exact hx) with ⟨w0, hw0, hw0s⟩
          rw [← hxe, hz1] at hw0
          obtain rfl : z1 = w0 := by injection hw0
          exact hs1 hw0s
        have hlinks : z1.links = z.links := hagz.2.2.2.2.1
        by_cases hc : zkContains st1 daughter = true
        · rw [if_pos hc] at h
          have hz1set : zkFind (setDepth st1 daughter (d + 1)) x = some z1 := by
            rw [zkFind_setDepth_other (d + 1) hxd]
            exact hz1
          have hcb2 : zkContains (setDepth st1 daughter (d + 1)) b = true := by
            rw [zkContains_congr (setDepth_map_zid st1 daughter (d + 1)),
              zkContains_congr hzid1]
            exact hcb
          exact udFold_children next hchildren hroot hagree d rest _ _ r h x z1 z'
            hz1set hzn1 hx' hzs b (by rw [hlinks]; exact hb) hcb2
        · rw [if_neg hc] at h
          have hcb1 : zkContains st1 b = true := by rw [zkContains_congr hzid1]; exact hcb
          exact udFold_children next hchildren hroot hagree d rest _ _ r h x z1 z'
            hz1 hzn1 hx' hzs b (by rw [hlinks]; exact hb) hcb1

/-- Any note that enters `_update_depths` unassigned and leaves it
assigned has, at the end of the call, every registered link target
assigned as well. -/
theorem udGo_children : ∀ (fuel : Nat) (zs : List Zettel) (m : String) (d : Nat)
    (r : List Zettel × List String),
    udGo fuel zs m d = some r →
    ∀ x z z', zkFind zs x = some z → z.depth.isNone = true →
      zkFind r.1 x = some z' → z'.depth.isSome = true →
      ∀ b ∈ z.links, zkContains zs b = true →
      ∃ w, zkFind r.1 b = some w ∧ w.depth.isSome = true
  | 0, _, _, _, _ => by intro h; simp [udGo] at h
  | fuel + 1, zs, m, d, r => by
    intro h x z z' hx hzn hx' hzs b hb hcb
    rw [udGo_succ] at h
    cases hf : zkFind zs m with
    | none =>
      rw [hf] at h
      dsimp only at h
      obtain rfl : (zs, [diagMsg m]) = r := by injection h
      rw [hx] at hx'
      obtain rfl : z = z' := by injection hx'
      exact (depth_none_isSome_false hzn hzs).elim
    | some mz =>
      rw [hf] at h
      dsimp only at h
      by_cases hd : mz.depth.isSome = true
      · rw [if_pos hd] at h
        obtain rfl : (zs, ([] : List String)) = r := by injection h
        rw [hx] at hx'
        obtain rfl : z = z' := by injection hx'
        exact (depth_none_isSome_false hzn hzs).elim
      · rw [if_neg hd] at h
        by_cases hxm : x = m
        · obtain rfl : z = mz := by rw [hxm] at hx; rw [hx] at hf; injection hf
          have hcb0 : zkContains (setDepth zs m d) b = true := by
            rw [zkContains_congr (setDepth_map_zid zs m d)]
            exact hcb
          exact udFold_assigns (udGo fuel)
            (fun st mm dd rr hh => udGo_dAgree fuel st mm dd rr hh) d z.links _ _ r h
            b hb hcb0
        · have hx0 : zkFind (setDepth zs m d) x = some z := by
            rw [zkFind_setDepth_other d hxm]
            exact hx
          have hcb0 : zkContains (setDepth zs m d) b = true := by
            rw [zkContains_congr (setDepth_map_zid zs m d)]
            exact hcb
          exact udFold_children (udGo fuel)
            (fun st mm dd rr hh => udGo_children fuel st mm dd rr hh)
            (fun st mm dd rr zz hh hff => udGo_root_isSome fuel st mm dd rr zz hh hff)
            (fun st mm dd rr hh => udGo_dAgree fuel st mm dd rr hh) d mz.links _ _ r h
            x z z' hx0 hzn hx' hzs b hb hcb0

/-! ## Helper lemmas: `finalize` -/

theorem ub_map_zid (zs : List Zettel) :
    (update_backlinks zs).1.map Zettel.zid = zs.map Zettel.zid := by
  rw [ub_char]
  simp [List.map_map]

theorem graphOf_ub (zs : List Zettel) : graphOf (update_backlinks zs).1 = graphOf zs := by
  rw [ub_char]
  simp [graphOf, List.map_map]

theorem update_depths_eq_udGo (X : List Zettel) :
    ∃ r, udGo (X.length + 1) X rootZid 0 = some r ∧ update_depths X = r := by
  cases h : udGo (X.length + 1) X rootZid 0 with
  | none => exact absurd h (update_depths_ne_none X)
  | some r =>
    refine ⟨r, rfl, ?_⟩
    unfold update_depths
    rw [h]

theorem finalize_forall2 (zs : List Zettel) :
    List.Forall₂ dAgree (update_backlinks zs).1 (finalize zs) := by
  rcases update_depths_eq_udGo (update_backlinks zs).1 with ⟨r, hr, hud⟩
  have h := udGo_dAgree _ _ _ _ _ hr
  unfold finalize
  rw [hud]
  exact h

theorem ub_backlinks_char (zs : List Zettel) (z' : Zettel)
    (h : z' ∈ (update_backlinks zs).1) (x : String) :
    x ∈ z'.backlinks ↔ ∃ w ∈ zs, w.zid = x ∧ z'.zid ∈ w.links := by
  rw [ub_char] at h
  rcases List.mem_map.mp h with ⟨w, hw, rfl⟩
  exact mem_ubBL

theorem zkContains_false_iff (zs : List Zettel) (u : String) :
    zkContains zs u = false ↔ ∀ w ∈ zs, w.zid ≠ u := by
  simp only [zkContains]
  rw [← Bool.not_eq_true]
  simp [List.any_eq_true]

theorem finalize_backlinks_eq_ubBL (zs : List Zettel) (e : Zettel) (he : e ∈ finalize zs) :
    e.backlinks = ubBL zs e.zid := by
  rcases forall2_mem_right (finalize_forall2 zs) he with ⟨e0, he0, hag⟩
  have h1 : e.backlinks = e0.backlinks := hag.2.2.2.2.2.1
  have h2 : e.zid = e0.zid := hag.1
  rw [ub_char] at he0
  rcases List.mem_map.mp he0 with ⟨w, _, rfl⟩
  rw [h1, h2]

theorem graphOf_finalize (zs : List Zettel) : graphOf (finalize zs) = graphOf zs := by
  rw [graphOf_of_forall2 (finalize_forall2 zs), graphOf_ub]

theorem ub_of_backlinks_eq (X : List Zettel) (h : ∀ e ∈ X, e.backlinks = ubBL X e.zid) :
    (update_backlinks X).1 = X := by
  rw [ub_char]
  have h2 : ∀ e ∈ X, ({ e with backlinks := ubBL X e.zid } : Zettel) = e := by
    intro e he
    rw [← h e he]
  rw [List.map_congr_left h2]
  simp

theorem update_depths_fst_id (X : List Zettel)
    (hroot : ∀ z, zkFind X rootZid = some z → z.depth.isSome = true) :
    (update_depths X).1 = X := by
  unfold update_depths
  rw [udGo_succ]
  cases hf : zkFind X rootZid with
  | none => rfl
  | some z =>
    dsimp only
    rw [if_pos (hroot z hf)]

theorem finalize_root_isSome (zs : List Zettel) (z : Zettel)
    (hf : zkFind (finalize zs) rootZid = some z) : z.depth.isSome = true := by
  rcases update_depths_eq_udGo (update_backlinks zs).1 with ⟨r, hr, hud⟩
  have hfin : finalize zs = r.1 := by unfold finalize; rw [hud]
  cases hf0 : zkFind (update_backlinks zs).1 rootZid with
  | none =>
    have := zkFind_none_of_forall2 (finalize_forall2 zs) hf0
    rw [this] at hf
    cases hf
  | some z0 =>
    rcases udGo_root_isSome _ _ _ _ _ _ hr hf0 with ⟨w, hw, hws⟩
    rw [← hfin] at hw
    rw [hf] at hw
    obtain rfl : w = z := by injection hw with h; exact h.symm
    exact hws

theorem zkFind_of_nodup : ∀ {zs : List Zettel}, (zs.map Zettel.zid).Nodup →
    ∀ {w : Zettel}, w ∈ zs → zkFind zs w.zid = some w := by
  intro zs
  induction zs with
  | nil =>
    intro _ w hw
    cases hw
  | cons a rest ih =>
    intro hnd w hw
    have hnd2 : (a.zid :: rest.map Zettel.zid).Nodup := by simpa using hnd
    rcases List.nodup_cons.mp hnd2 with ⟨hna, hnr⟩
    rcases List.mem_cons.mp hw with rfl | hw2
    · rw [zkFind, List.find?_cons_of_pos _ (by simp)]
    · by_cases ha : a.zid = w.zid
      · exfalso
        exact hna (by rw [ha]; exact List.mem_map.mpr ⟨w, hw2, rfl⟩)
      · rw [zkFind, List.find?_cons_of_neg _ (by simpa using ha)]
        exact ih hnr hw2

theorem ub_finalize_fst (zs : List Zettel) :
    (update_backlinks (finalize zs)).1 = finalize zs := by
  apply ub_of_backlinks_eq
  intro e he
  rw [finalize_backlinks_eq_ubBL zs e he]
  unfold ubBL
  rw [graphOf_finalize]

/-! ## Claim theorems -/

/-- Claim C1 (code_bug evaluation): depth assignment is NOT
first-assignment-wins in `_update_depths`.  On the spec's own example
collection (root linking to `20230101000001` and back), the unconditional
`self.zid2zettel[daughter].depth = mother_depth + 1` after the recursive
call overwrites the root's already-assigned depth 0 with 2, while the
second note ends at depth 1; the claim demands root depth 0. -/
theorem c1_depth_overwritten :
    (zkFind (finalize [exC1root, exC1b]) rootZid).map Zettel.depth = some (some 2)
    ∧ (zkFind (finalize [exC1root, exC1b]) "20230101000001").map Zettel.depth = some (some 1)
    ∧ ((zkFind (finalize [exC1root, exC1b]) rootZid).map Zettel.depth ≠ some (some 0)) := by
  refine ⟨by decide, by decide, by decide⟩

/-- Claim C3 (code_bug evaluation): the rewrite pipeline is NOT
idempotent.  For the note `exC3a` whose content is a single blank line
and which has one backlink, the first pass appends a `## Backlinks`
section; because the file has no level-1 heading the generated section's
heading path has length 1, so rule 6 (which requires a path of exactly
two levels) does not strip it on the second pass, and a second copy of
the section is appended. -/
theorem c3_not_idempotent :
    transform exC3zk idTagTr exC3a (transform exC3zk idTagTr exC3a "\n")
      ≠ transform exC3zk idTagTr exC3a "\n" := by
  decide

/-- Claim C2: after `finalize()`, for registered notes `A` and `B`
(`B'` being `B`'s entry in the finalized collection), `A`'s id is in
`B'`'s backlinks iff `B`'s id occurs in `A`'s links. -/
theorem c2_backlinks_iff (zs : List Zettel) (hnd : (zs.map Zettel.zid).Nodup)
    (A B B' : Zettel) (hA : A ∈ zs) (_hB : B ∈ zs)
    (hB' : zkFind (finalize zs) B.zid = some B') :
    A.zid ∈ B'.backlinks ↔ B.zid ∈ A.links := by
  have hmem : B' ∈ finalize zs := List.mem_of_find?_eq_some hB'
  have hzid : B'.zid = B.zid := by
    have h := List.find?_some hB'
    simpa using h
  have hbl : B'.backlinks = ubBL zs B.zid := by
    rw [finalize_backlinks_eq_ubBL zs B' hmem, hzid]
  rw [hbl, mem_ubBL]
  constructor
  · rintro ⟨v, hv, hvz, hlink⟩
    have hva : v = A := List.inj_on_of_nodup_map hnd hv hA hvz
    rw [← hva]
    exact hlink
  · intro h
    exact ⟨A, hA, rfl, h⟩

/-- Witness for C2 on the two-note collection `[exW1, exW2]`. -/
theorem c2_backlinks_iff_witness :
    "33333333333333" ∈ exW2r.backlinks ↔ "44444444444444" ∈ exW1.links := by
  have h := c2_backlinks_iff [exW1, exW2] (by decide) exW1 exW2 exW2r
    (by decide) (by decide) (by decide)
  simpa using h

/-- The title component of the `analyze_file` fold is the last matching
line's split-derived title, defaulting to the state's current title. -/
theorem analyzeTitle_foldl : ∀ (ls : List String) (st : String × List String × List String),
    (ls.foldl analyzeStep st).1
      = ((ls.filter fun l => startsWithStr l "# ").getLast?.map titleOfLine).getD st.1
  | [], st => rfl
  | l :: rest, st => by
    rw [List.foldl_cons, analyzeTitle_foldl rest]
    by_cases hl : startsWithStr l "# " = true
    · rw [List.filter_cons_of_pos (by simpa using hl), List.getLast?_cons]
      cases hlast : (rest.filter fun l2 => startsWithStr l2 "# ").getLast? with
      | none => simp [hlast, analyzeStep, hl]
      | some y => simp [hlast]
    · rw [List.filter_cons_of_neg (by simpa using hl)]
      have hstep : (analyzeStep st l).1 = st.1 := by simp [analyzeStep, hl]
      rw [hstep]

/-- Claim C6 (counterexample): on a file with two level-1 heading lines
the extracted title comes from the LAST one, not the first — the claim
says the first. -/
theorem c6_title_not_first :
    analyzeTitle "# A\n# B\n" = "B" ∧ analyzeTitle "# A\n# B\n" ≠ "A" := by
  refine ⟨by decide, by decide⟩

/-- Claim C6 as amended: `analyze_file` sets the title from the LAST
line starting with `"# "` — assigning `line.split("# ")[1].strip()`, the
stripped text between the first and the second occurrence of `"# "` —
and leaves it empty when no such line exists. -/
theorem c6_title_amended (content : String) : analyzeTitle content = titleAmendedOf content := by
  unfold analyzeTitle analyze_file titleAmendedOf
  rw [analyzeTitle_foldl]
  cases h : (List.filter (fun l => startsWithStr l "# ") (pyReadlines content)).getLast? with
  | none => simp [h]
  | some l => simp [h]

/-- Claim C4: `finalize` is idempotent — a second call with no
intervening registration leaves the whole state (in particular every
note's backlinks and depth) unchanged. -/
theorem c4_finalize_idempotent (zs : List Zettel) : finalize (finalize zs) = finalize zs := by
  have h1 := ub_finalize_fst zs
  have h2 : finalize (finalize zs) = (update_depths (update_backlinks (finalize zs)).1).1 := rfl
  rw [h2, h1]
  exact update_depths_fst_id (finalize zs) (finalize_root_isSome zs)

/-- Claim C10: after `finalize`, every id in any note's backlinks set is
the id of a registered note. -/
theorem c10_backlinks_registered (zs : List Zettel) (z' : Zettel) (hz : z' ∈ finalize zs)
    (x : String) (hx : x ∈ z'.backlinks) : zkContains (finalize zs) x = true := by
  have hbl := finalize_backlinks_eq_ubBL zs z' hz
  rw [hbl, mem_ubBL] at hx
  rcases hx with ⟨w, hw, hwx, -⟩
  have hzk : zkContains zs x = true := by
    rw [← hwx]
    exact zkContains_of_mem hw
  have hmap : (finalize zs).map Zettel.zid = zs.map Zettel.zid := by
    rw [map_zid_of_forall2 (finalize_forall2 zs), ub_map_zid]
  rw [zkContains_congr hmap]
  exact hzk

/-- Witness for C10 on the two-note collection `[exW1, exW2]`. -/
theorem c10_backlinks_registered_witness :
    zkContains (finalize [exW1, exW2]) "33333333333333" = true :=
  c10_backlinks_registered [exW1, exW2] exW2r (by decide) "33333333333333" (by decide)

/-- Claim C9: a dangling link never aborts `_update_backlinks`: exactly
one diagnostic is recorded per occurrence of the unresolved id, no
backlink set mentions the unresolved id, every note survives with its
backlinks computed exactly from the registered links, and the subsequent
depth pass of `finalize` also runs to completion (its fuel never runs
out). -/
theorem c9_dangling_link (zs : List Zettel) (u : String)
    (hu : zkContains zs u = false) (_hmention : ∃ z ∈ zs, u ∈ z.links) :
    (update_backlinks zs).2.count (diagMsg u) = (zs.map fun z => z.links.count u).sum
    ∧ (∀ z' ∈ (update_backlinks zs).1, u ∉ z'.backlinks)
    ∧ (update_backlinks zs).1.map Zettel.zid = zs.map Zettel.zid
    ∧ (∀ z' ∈ (update_backlinks zs).1, ∀ x,
        x ∈ z'.backlinks ↔ ∃ w ∈ zs, w.zid = x ∧ z'.zid ∈ w.links)
    ∧ udGo ((update_backlinks zs).1.length + 1) (update_backlinks zs).1 rootZid 0 ≠ none := by
  refine ⟨ub_diag_count zs u hu, ?_, ub_map_zid zs,
    fun z' h x => ub_backlinks_char zs z' h x, update_depths_ne_none _⟩
  intro z' h hmem
  rw [ub_backlinks_char zs z' h u] at hmem
  rcases hmem with ⟨w, hw, hwu, -⟩
  exact absurd hwu ((zkContains_false_iff zs u).mp hu w hw)

theorem sw_hash_eq (p : String) : startsWithStr ("# " ++ p) "===" = false := by
  simp [startsWithStr, String.data_append, List.isPrefixOf]

theorem sw_hash_dash (p : String) : startsWithStr ("# " ++ p) "---" = false := by
  simp [startsWithStr, String.data_append, List.isPrefixOf]

theorem sw_hash2_eq (p : String) : startsWithStr ("## " ++ p) "===" = false := by
  simp [startsWithStr, String.data_append, List.isPrefixOf]

theorem sw_hash2_dash (p : String) : startsWithStr ("## " ++ p) "---" = false := by
  simp [startsWithStr, String.data_append, List.isPrefixOf]

theorem sw_dash_not_eq {s : String} (h : startsWithStr s "---" = true) :
    startsWithStr s "===" = false := by
  simp only [startsWithStr] at h ⊢
  cases hd : s.data with
  | nil => rw [hd] at h; simp [List.isPrefixOf] at h
  | cons c rest =>
    rw [hd] at h
    simp only [List.isPrefixOf] at h ⊢
    have hc : c = '-' := by
      rcases Bool.and_eq_true_iff.mp h with ⟨hcc, -⟩
      exact (beq_iff_eq.mp hcc).symm
    subst hc
    simp

/-- Claim C7 (counterexample): a line of `=` characters at 0-based index
1 with a non-blank previous line, outside any code region, is NOT
converted — the loop requires `i > 1` — so the claim's unconditional
rule is false. -/
theorem c7_setext_not_at_index_one :
    transform [] idTagTr exC7note "A\n===\n" = "A\n===\n" ∧ "A\n===\n" ≠ "# A\n" := by
  refine ⟨by decide, by decide⟩

/-- Claim C7 as amended: from the third line on (0-based index `i > 1`),
a line whose text starts with at least three `=` characters (regardless
of what follows), outside a code region and with the previous line's
current text non-blank, retracts the last emitted line and is processed
as the level-1 heading built from the previous line's current text; a
line starting with three `-` characters is likewise processed as a
level-2 heading. -/
theorem c7_setext_rule (zk : List Zettel) (tagTr : List String → List String) (note : Zettel)
    (st : TState) (ml : MdLine) (h1 : 1 < st.idx) (h2 : ml.is_code_block = false)
    (h3 : pyStrip st.prev ≠ "") :
    (startsWithStr ml.text "===" = true →
      transformStep zk tagTr note st ml
        = transformStep zk tagTr note { st with out := st.out.dropLast }
            { ml with text := "# " ++ st.prev })
    ∧ (startsWithStr ml.text "---" = true →
      transformStep zk tagTr note st ml
        = transformStep zk tagTr note { st with out := st.out.dropLast }
            { ml with text := "## " ++ st.prev }) := by
  constructor
  · intro hsw
    unfold transformStep
    simp [h1, h2, h3, hsw, sw_hash_eq, sw_hash_dash]
  · intro hsw
    have hswe := sw_dash_not_eq hsw
    unfold transformStep
    simp [h1, h2, h3, hsw, hswe, sw_hash2_eq, sw_hash2_dash]

/-- Witness for C7 at a concrete loop state (index 2, previous line
`"B\n"`). -/
theorem c7_setext_rule_witness :
    transformStep [] idTagTr exC7note ⟨["A\n", "B\n"], "B\n", 2⟩ ⟨"===\n", false, [], false⟩
      = transformStep [] idTagTr exC7note ⟨["A\n"], "B\n", 2⟩ ⟨"# " ++ "B\n", false, [], false⟩ :=
  (c7_setext_rule [] idTagTr exC7note ⟨["A\n", "B\n"], "B\n", 2⟩ ⟨"===\n", false, [], false⟩
    (by decide) rfl (by decide)).1 (by decide)

theorem data_hash_cons (x : String) : ("#" ++ x).data = '#' :: x.data := by
  rw [String.data_append]
  rfl

theorem strLt_hash (a b : String) : strLt ("#" ++ a) ("#" ++ b) = strLt a b := by
  simp only [strLt, data_hash_cons, strLtAux]
  rw [if_neg (by simp [charLtB]), if_neg (by simp [charLtB])]
  rfl

theorem mk_data (s : String) : String.mk s.data = s := rfl

theorem infixAux_of_prefix {pat s : List Char} (h : pat.isPrefixOf s = true) :
    infixAux pat s = true := by
  cases s with
  | nil =>
    have hp : pat = [] := by
      cases pat with
      | nil => rfl
      | cons c cs => simp [List.isPrefixOf] at h
    simp [infixAux, hp]
  | cons c t =>
    simp only [infixAux, h, Bool.true_or]

theorem tagFindall_format (l : List String)
    (hsort : l.Pairwise fun a b => strLt a b = true) (hws : ∀ t ∈ l, wsFree t = true) :
    tagFindall (format_tags l) = l.map fun t => "#" ++ t := by
  unfold tagFindall format_tags
  rw [sortStrs_sorted_id hsort]
  have hdata : ("Tags: " ++ joinSep " " (l.map fun tag => "#" ++ tag) ++ "\n").data
      = "Tags: ".data ++ ((joinSep " " (l.map fun tag => "#" ++ tag)).data ++ ['\n']) := by
    rw [String.data_append, String.data_append, List.append_assoc]
  rw [hdata]
  rw [tagAux_skip _ _ (by decide)]
  exact tagAux_join l hws

/-- Claim C8 (counterexample): a tag containing a space does not survive
the round-trip ({"a b"} becomes {"a"}), so the claim's universal
quantification over all tag sets is false. -/
theorem c8_roundtrip_fails_on_space :
    readTags (format_tags ["a b"]) = ["a"] ∧ readTags (format_tags ["a b"]) ≠ ["a b"] := by
  refine ⟨by decide, by decide⟩

/-- Claim C8 as amended: for every tag set whose tags are free of
whitespace (sets are canonically sorted duplicate-free lists here),
formatting with `_format_tags` and re-parsing with the tag parser of
`analyze_file` yields the original set; the formatted line does contain
the `"tags: "` marker the parser gates on. -/
theorem c8_tag_roundtrip (tags : List String) (hsort : strSorted tags)
    (hws : ∀ t ∈ tags, wsFree t = true) :
    containsSub (pyLower (format_tags tags)) "tags: " = true
    ∧ readTags (format_tags tags) = tags := by
  constructor
  · unfold format_tags containsSub
    have h0 : List.map Char.toLower ("Tags: ".data) = "tags: ".data := rfl
    have hdata : (pyLower ("Tags: " ++ joinSep " " ((sortStrs tags).map fun tag => "#" ++ tag)
        ++ "\n")).data
        = "tags: ".data ++ (List.map Char.toLower
            ((joinSep " " ((sortStrs tags).map fun tag => "#" ++ tag)).data ++ "\n".data)) := by
      simp only [pyLower, String.data_append, List.map_append, h0, List.append_assoc]
    rw [hdata]
    apply infixAux_of_prefix
    rw [List.isPrefixOf_iff_prefix]
    exact List.prefix_append _ _
  · unfold readTags
    rw [tagFindall_format tags hsort hws]
    have htok : (tags.map fun t => "#" ++ t).Pairwise (fun a b => strLt a b = true) := by
      rw [List.pairwise_map]
      exact hsort.imp fun h => by rw [strLt_hash]; exact h
    have hset1 : setOfList (tags.map fun t => "#" ++ t) = tags.map fun t => "#" ++ t :=
      sorted_ext (setOfList_pairwise _) htok (fun x => mem_setOfList)
    rw [hset1, List.map_map]
    have hmapid : (tags.map ((fun t => String.mk t.data.tail) ∘ fun t => "#" ++ t)) = tags := by
      rw [List.map_congr_left (fun x _ => by
        show String.mk ("#" ++ x).data.tail = x
        rw [data_hash_cons]
        exact mk_data x)]
      simp
    rw [hmapid]
    exact sorted_ext (setOfList_pairwise tags) hsort (fun x => mem_setOfList)

/-- Witness for C8 on the tag set of the spec's example, `{a, b}`. -/
theorem c8_tag_roundtrip_witness :
    format_tags ["a", "b"] = "Tags: #a #b\n"
    ∧ (containsSub (pyLower (format_tags ["a", "b"])) "tags: " = true
        ∧ readTags (format_tags ["a", "b"]) = ["a", "b"]) :=
  ⟨by decide, c8_tag_roundtrip ["a", "b"] (by unfold strSorted; decide) (by decide)⟩

/-- Claim C5: on a fresh collection (all depths unassigned) whose link
graph has a cycle through the root, the depth pass of `finalize` still
terminates (the recursion fuel never runs out) and every note reachable
from the root ends the pass with an assigned depth. -/
theorem c5_cycle_safe (zs : List Zettel) (hnd : (zs.map Zettel.zid).Nodup)
    (h0 : ∀ z ∈ zs, z.depth = none) (_hcyc : CycleThruRoot (graphOf zs)) :
    udGo ((update_backlinks zs).1.length + 1) (update_backlinks zs).1 rootZid 0 ≠ none
    ∧ ∀ x, Reaches (graphOf zs) x →
        ∃ w, zkFind (finalize zs) x = some w ∧ w.depth.isSome = true := by
  refine ⟨update_depths_ne_none _, ?_⟩
  rcases update_depths_eq_udGo (update_backlinks zs).1 with ⟨r, hr, hud⟩
  have hfin : finalize zs = r.1 := by unfold finalize; rw [hud]
  have hub := ub_char zs
  have hndub : ((update_backlinks zs).1.map Zettel.zid).Nodup := by
    rw [ub_map_zid]
    exact hnd
  intro x hx
  induction hx with
  | root hreg =>
    rcases hreg with ⟨p, hp, hp1⟩
    rcases List.mem_map.mp hp with ⟨w, hw, rfl⟩
    have hwub : ({ w with backlinks := ubBL zs w.zid } : Zettel) ∈ (update_backlinks zs).1 := by
      rw [hub]
      exact List.mem_map_of_mem _ hw
    have hfind : zkFind (update_backlinks zs).1 rootZid
        = some { w with backlinks := ubBL zs w.zid } := by
      have h1 := zkFind_of_nodup hndub hwub
      rw [show ({ w with backlinks := ubBL zs w.zid } : Zettel).zid = w.zid from rfl] at h1
      rw [← hp1]
      exact h1
    rcases udGo_root_isSome _ _ _ _ _ _ hr hfind with ⟨w2, hw2, hw2s⟩
    exact ⟨w2, by rw [hfin]; exact hw2, hw2s⟩
  | @step a b ha p hp hpa hb hreg ih =>
    rcases ih with ⟨wa, hwa, hwas⟩
    rcases List.mem_map.mp hp with ⟨v, hv, rfl⟩
    have hveub : ({ v with backlinks := ubBL zs v.zid } : Zettel) ∈ (update_backlinks zs).1 := by
      rw [hub]
      exact List.mem_map_of_mem _ hv
    have hfindv : zkFind (update_backlinks zs).1 v.zid
        = some { v with backlinks := ubBL zs v.zid } :=
      zkFind_of_nodup hndub hveub
    have hvnone : ({ v with backlinks := ubBL zs v.zid } : Zettel).depth.isNone = true := by
      have := h0 v hv
      simp [this]
    have hcb : zkContains (update_backlinks zs).1 b = true := by
      rw [zkContains_congr (ub_map_zid zs)]
      rcases hreg with ⟨q, hq, hq1⟩
      rcases List.mem_map.mp hq with ⟨u, hu, rfl⟩
      rw [← hq1]
      exact zkContains_of_mem hu
    have hwa2 : zkFind r.1 a = some wa := by rw [← hfin]; exact hwa
    rcases udGo_children _ _ _ _ _ hr a _ wa
      (by have hpa2 : v.zid = a := hpa; rw [← hpa2]; exact hfindv) hvnone
      hwa2 hwas b hb hcb with ⟨w2, hw2, hw2s⟩
    exact ⟨w2, by rw [hfin]; exact hw2, hw2s⟩

/-- Witness for C5 on the spec's two-note cycle through the root. -/
theorem c5_cycle_safe_witness :
    udGo ((update_backlinks [exC1root, exC1b]).1.length + 1)
        (update_backlinks [exC1root, exC1b]).1 rootZid 0 ≠ none
    ∧ ∀ x, Reaches (graphOf [exC1root, exC1b]) x →
        ∃ w, zkFind (finalize [exC1root, exC1b]) x = some w ∧ w.depth.isSome = true := by
  have e1 : LinkEdge (graphOf [exC1root, exC1b]) rootZid "20230101000001" := by
    refine ⟨("00000000000000", ["20230101000001"]), by decide, by decide, by decide, ?_⟩
    exact ⟨("20230101000001", ["00000000000000"]), by decide, by decide⟩
  have e2 : LinkEdge (graphOf [exC1root, exC1b]) "20230101000001" rootZid := by
    refine ⟨("20230101000001", ["00000000000000"]), by decide, by decide, by decide, ?_⟩
    exact ⟨("00000000000000", ["20230101000001"]), by decide, by decide⟩
  exact c5_cycle_safe [exC1root, exC1b] (by decide) (by decide)
    (Relation.TransGen.head e1 (Relation.TransGen.single e2))

/-- Witness for C9: `exW3` links once to the unregistered
`99999999999999`. -/
theorem c9_dangling_link_witness :
    (update_backlinks [exW3, exW2]).2.count (diagMsg "99999999999999")
      = ([exW3, exW2].map fun z => z.links.count "99999999999999").sum
    ∧ (∀ z' ∈ (update_backlinks [exW3, exW2]).1, "99999999999999" ∉ z'.backlinks)
    ∧ (update_backlinks [exW3, exW2]).1.map Zettel.zid = [exW3, exW2].map Zettel.zid
    ∧ (∀ z' ∈ (update_backlinks [exW3, exW2]).1, ∀ x,
        x ∈ z'.backlinks ↔ ∃ w ∈ [exW3, exW2], w.zid = x ∧ z'.zid ∈ w.links)
    ∧ udGo ((update_backlinks [exW3, exW2]).1.length + 1) (update_backlinks [exW3, exW2]).1
        rootZid 0 ≠ none :=
  c9_dangling_link [exW3, exW2] "99999999999999" (by decide) (by decide)

end Verz



